import Mathlib

/-!
Verification development for the cw404 hybrid ledger contract
(`src/contracts/cw404/src/execute.rs` together with the state schema in
`src/contracts/cw404/src/state.rs`).

The contract state is a record of the persisted items/maps of `state.rs`.
`Uint128` values are modelled as `Nat`; in every reachable situation the
values handled stay below `2 ^ 128` (the balance ledger is bounded by the
total supply fixed at instantiation), so `Nat` arithmetic coincides with
`Uint128` arithmetic wherever the contract's checked operations succeed, and
the contract's `checked_sub` failures are modelled explicitly.  Map keys
`Uint128::to_string()` are injective, so integer-keyed maps keep `Nat` keys.

Fallible code returns `Except Failure _`: `Failure.err e` models a typed
`ContractError` return, `Failure.trap` models a Rust panic (out-of-bounds
indexing, arithmetic underflow in `usize`, or `.unwrap()` on an `Err`).
Either way the host aborts the enclosing transaction and no state change is
committed, which `execStep` reflects by keeping the pre-state on any failure.
-/

/-- Modelled from the spec: `error.rs` is not among the source files; the
variants are reconstructed from their uses in `execute.rs` and the spec's
error list (§7).  `std` covers the `ContractError::Std` conversions:
`overflowSub` is the `checked_sub` underflow error (the spec's
`InsufficientBalance` / `InsufficientAllowance`), `addrInvalid` the
`addr_validate` rejection. -/
inductive StdErr where
  | overflowSub
  | addrInvalid
deriving DecidableEq, Repr

inductive ContractError where
  | unauthorized
  | invalidSender
  | invalidRecipient
  | alreadyExists
  | preventBurn
  | std (e : StdErr)
deriving DecidableEq, Repr

/-- A failed call: either a typed `ContractError` returned to the host, or a
Rust panic (`trap`).  Both abort the transaction. -/
inductive Failure where
  | err (e : ContractError)
  | trap
deriving DecidableEq, Repr

/-- Models Rust's `.unwrap()` on a `Result`: a typed error becomes a panic. -/
def unwrapR {α : Type} (r : Except Failure α) : Except Failure α :=
  match r with
  | .ok a => .ok a
  | .error _ => .error .trap

/-- Models the host primitive `deps.api.addr_validate` (out of scope per the
spec §1: "address-format validation ... treated as external collaborators").
Identities are abstract strings; the model only retains that the empty
string is not a valid address. -/
def addrValidate (s : String) : Except Failure String :=
  if s = "" then .error (.err (.std .addrInvalid)) else .ok s

/-- Lookup in `BALANCES`: `may_load(...).unwrap_or_default()`. -/
def balGet (m : List (String × Nat)) (k : String) : Nat :=
  match m.find? (fun p => p.1 = k) with
  | some p => p.2
  | none => 0

/-- Store a new value for key `k` (`BALANCES.save`/`update`). -/
def balSet (m : List (String × Nat)) (k : String) (v : Nat) : List (String × Nat) :=
  (k, v) :: m.eraseP (fun p => p.1 = k)

/-- Sum of all entries of the balance ledger. -/
def balSum (m : List (String × Nat)) : Nat :=
  (m.map (fun p => p.2)).sum

/-- Pointwise update of a string-keyed map modelled as a function. -/
def setS {α : Type} (f : String → α) (k : String) (v : α) : String → α :=
  fun x => if x = k then v else f x

/-- Pointwise update of an integer-keyed map modelled as a function. -/
def setN {α : Type} (f : Nat → α) (k : Nat) (v : α) : Nat → α :=
  fun x => if x = k then v else f x

/-- Pointwise update of a pair-keyed map modelled as a function. -/
def setP {α : Type} (f : String × String → α) (k : String × String) (v : α) :
    String × String → α :=
  fun x => if x = k then v else f x

/-- The persisted contract state (`state.rs`): one field per `Item`/`Map`.
`Option`-valued fields distinguish absent entries (the code reads them with
`may_load(..).unwrap_or(..)` defaults); `allowance` is read with default
zero everywhere, so it is kept total. -/
structure State where
  owner : String
  name : String
  symbol : String
  baseTokenUri : String
  decimals : Nat
  totalSupply : Nat
  minted : Nat
  whitelist : String → Bool
  getApproved : Nat → Option String
  allowance : String × String → Nat
  balances : List (String × Nat)
  ownerOf : Nat → Option String
  owned : String → List Nat
  ownedIndex : Nat → Option Nat
  approvedForAll : String × String → Bool
  locked : Nat → Bool

/-- Model of `instantiate` (`execute.rs` lines 13-34): stores the metadata, sets
`total_supply = total_native_supply * 10^decimals`, `minted = 0`, records the
sender as contract owner and credits the whole supply to the sender. -/
def instantiate (nm sym : String) (decimals totalNativeSupply : Nat)
    (sender : String) : State :=
  { owner := sender
    name := nm
    symbol := sym
    baseTokenUri := ""
    decimals := decimals
    totalSupply := totalNativeSupply * 10 ^ decimals
    minted := 0
    whitelist := fun _ => false
    getApproved := fun _ => none
    allowance := fun _ => 0
    balances := [(sender, totalNativeSupply * 10 ^ decimals)]
    ownerOf := fun _ => none
    owned := fun _ => []
    ownedIndex := fun _ => none
    approvedForAll := fun _ => false
    locked := fun _ => false }

/-- Model of `get_unit` (`execute.rs` lines 492-495). -/
def get_unit (s : State) : Nat := 10 ^ s.decimals

/-- Model of `_mint` (`execute.rs` lines 572-609): allocates id `minted + 1`, advances
the counter, defensively fails `AlreadyExists` if the id is already owned,
appends the id to the recipient's owned sequence and records its index.  The
returned self-dispatch event message is pure notification and is dropped. -/
def _mint (s : State) (dst : String) : Except Failure State :=
  if dst = "" then .error (.err .invalidRecipient) else
  let id := s.minted + 1
  let s1 : State := { s with minted := id }
  if (s1.ownerOf id).getD "" ≠ "" then .error (.err .alreadyExists) else
  let s2 : State := { s1 with ownerOf := setN s1.ownerOf id (some dst) }
  let owned' := s2.owned dst ++ [id]
  let s3 : State := { s2 with owned := setS s2.owned dst owned' }
  .ok { s3 with ownedIndex := setN s3.ownedIndex id (some (owned'.length - 1)) }

/-- Model of `_burn` (`execute.rs` lines 611-638): removes the last element of the
sender's owned sequence (`owned[owned.len() - 1]` panics when the sequence is
empty), clears its index, ownership and approval entries, and only then
checks the lock flag, failing `PreventBurn` (the spec's `LockedToken`) if it
is set; the failure aborts the transaction, so the earlier removals are never
committed.  The self-dispatch burn event message is dropped. -/
def _burn (s : State) (frm : String) : Except Failure State :=
  if frm = "" then .error (.err .invalidSender) else
  let ownedL := s.owned frm
  match ownedL.getLast? with
  | none => .error .trap
  | some id =>
    let s1 : State := { s with owned := setS s.owned frm ownedL.dropLast }
    let s2 : State := { s1 with ownedIndex := setN s1.ownedIndex id none }
    let s3 : State := { s2 with ownerOf := setN s2.ownerOf id none }
    let s4 : State := { s3 with getApproved := setN s3.getApproved id none }
    if s4.locked id then .error (.err .preventBurn) else .ok s4

/-- The `for _i in 0..tokens_to_burn` loop bodies of `_transfer` and
`set_whitelist`: `n` sequential `_burn`s, the first failure propagating. -/
def burnN (frm : String) : Nat → State → Except Failure State
  | 0, s => .ok s
  | n + 1, s =>
    match _burn s frm with
    | .error e => .error e
    | .ok s' => burnN frm n s'

/-- The `for _i in 0..tokens_to_mint` loop of `_transfer`: `n` sequential
`_mint`s, the first failure propagating. -/
def mintN (dst : String) : Nat → State → Except Failure State
  | 0, s => .ok s
  | n + 1, s =>
    match _mint s dst with
    | .error e => .error e
    | .ok s' => mintN dst n s'

/-- Model of `_transfer` (`execute.rs` lines 497-570), the synchronization engine:
debits `amount` from `frm` (typed error on `checked_sub` underflow), credits
it to `to`, then, for each non-whitelisted party, burns/mints the number of
whole-unit boundaries crossed.  The two `Uint128` subtractions computing the
burn/mint counts cannot underflow (the post-debit sender balance is at most
the pre-debit one, and symmetrically for the receiver), so `Nat` truncating
subtraction is exact here. -/
def _transfer (s : State) (frm dst : String) (amount : Nat) :
    Except Failure State :=
  match addrValidate frm with
  | .error e => .error e
  | .ok _ =>
  match addrValidate dst with
  | .error e => .error e
  | .ok _ =>
    let unit := get_unit s
    let balance_before_sender := balGet s.balances frm
    let balance_before_receiver := balGet s.balances dst
    if amount > balGet s.balances frm then .error (.err (.std .overflowSub)) else
    let s1 : State :=
      { s with balances := balSet s.balances frm (balGet s.balances frm - amount) }
    let s2 : State :=
      { s1 with balances := balSet s1.balances dst (balGet s1.balances dst + amount) }
    let whitelist_from := s2.whitelist frm
    let whitelist_to := s2.whitelist dst
    match (if whitelist_from then .ok s2 else
            burnN frm (balance_before_sender / unit - balGet s2.balances frm / unit) s2 :
              Except Failure State) with
    | .error e => .error e
    | .ok s3 =>
      if whitelist_to then .ok s3 else
      mintN dst (balGet s3.balances dst / unit - balance_before_receiver / unit) s3

/-- Model of `transfer` (`execute.rs` lines 422-431). -/
def transfer (s : State) (sender dst : String) (amount : Nat) :
    Except Failure State :=
  _transfer s sender dst amount

/-- Model of `transfer_from` (`execute.rs` lines 206-337), the dual-mode dispatch.
If `amount_or_id <= minted` it is a token transfer: ownership, recipient,
authorization and recipient-whitelist checks, then one unit of balance moved
and the swap-with-last removal of the id from the sender's owned sequence
(`vec_updated_id.get(len - 1).unwrap()` and the slot assignment panic when
the sequence is empty resp. the stored index is out of bounds).  Otherwise it
is a fractional transfer: the caller's allowance is deducted unless it is the
`Uint128::MAX` sentinel, and the result of `_transfer` is `.unwrap()`ed. -/
def transfer_from (s : State) (sender frm dst : String) (amountOrId : Nat) :
    Except Failure State :=
  match addrValidate frm with
  | .error e => .error e
  | .ok _ =>
  match addrValidate dst with
  | .error e => .error e
  | .ok _ =>
    let owner_of := (s.ownerOf amountOrId).getD ""
    let minted := s.minted
    let is_approved_for_all := s.approvedForAll (frm, sender)
    let get_approved := (s.getApproved amountOrId).getD ""
    let unit := get_unit s
    if amountOrId ≤ minted then
      if frm ≠ owner_of then .error (.err .invalidSender) else
      if dst = "" then .error (.err .invalidRecipient) else
      if sender ≠ frm ∧ ¬is_approved_for_all ∧ sender ≠ get_approved then
        .error (.err .unauthorized) else
      if s.whitelist dst then .error (.err .invalidRecipient) else
      if unit > balGet s.balances frm then .error (.err (.std .overflowSub)) else
      let s1 : State :=
        { s with balances := balSet s.balances frm (balGet s.balances frm - unit) }
      let s2 : State :=
        { s1 with balances := balSet s1.balances dst (balGet s1.balances dst + unit) }
      let s3 : State := { s2 with ownerOf := setN s2.ownerOf amountOrId (some dst) }
      let s4 : State := { s3 with getApproved := setN s3.getApproved amountOrId none }
      let vec_updated_id := s4.owned frm
      match vec_updated_id.getLast? with
      | none => .error .trap
      | some updated_id =>
        let owned_index := (s4.ownedIndex amountOrId).getD 0
        let s5 : State :=
          { s4 with ownedIndex := setN s4.ownedIndex updated_id (some owned_index) }
        if owned_index < vec_updated_id.length then
          let vec' := (vec_updated_id.set owned_index updated_id).dropLast
          let s6 : State := { s5 with owned := setS s5.owned frm vec' }
          let to_owned := s6.owned dst ++ [amountOrId]
          let s7 : State := { s6 with owned := setS s6.owned dst to_owned }
          .ok { s7 with
                ownedIndex := setN s7.ownedIndex amountOrId (some (to_owned.length - 1)) }
        else .error .trap
    else
      let allowed := s.allowance (frm, sender)
      match (if allowed ≠ 2 ^ 128 - 1 then
              (if amountOrId > allowed then .error (.err (.std .overflowSub)) else
                .ok { s with allowance := setP s.allowance (frm, sender) (allowed - amountOrId) })
             else .ok s : Except Failure State) with
      | .error e => .error e
      | .ok s1 => unwrapR (_transfer s1 frm dst amountOrId)

/-- Model of `approve` (`execute.rs` lines 339-380): for a nonzero id not exceeding
the minted counter, a single-token approval (owner or operator only);
otherwise the fractional allowance `(sender, spender)` is overwritten. -/
def approve (s : State) (sender spender : String) (amountOrId : Nat) :
    Except Failure State :=
  if amountOrId ≤ s.minted ∧ 0 < amountOrId then
    let owner := (s.ownerOf amountOrId).getD ""
    let is_approved_for_all := s.approvedForAll (owner, sender)
    if sender ≠ owner ∧ ¬is_approved_for_all then .error (.err .unauthorized) else
    .ok { s with getApproved := setN s.getApproved amountOrId (some spender) }
  else
    .ok { s with allowance := setP s.allowance (sender, spender) amountOrId }

/-- Model of `approve_all` (`execute.rs` lines 382-400). -/
def approve_all (s : State) (sender operator : String) : Except Failure State :=
  match addrValidate operator with
  | .error e => .error e
  | .ok _ => .ok { s with approvedForAll := setP s.approvedForAll (sender, operator) true }

/-- Model of `revoke_all` (`execute.rs` lines 402-420). -/
def revoke_all (s : State) (sender operator : String) : Except Failure State :=
  match addrValidate operator with
  | .error e => .error e
  | .ok _ => .ok { s with approvedForAll := setP s.approvedForAll (sender, operator) false }

/-- Model of `send` (`execute.rs` lines 433-460): `_transfer(...).unwrap()`, then a
`Cw20ReceiveMsg` is attached (dropped here, pure message plumbing). -/
def send (s : State) (sender contract : String) (amount : Nat) :
    Except Failure State :=
  unwrapR (_transfer s sender contract amount)

/-- Model of `send_nft` (`execute.rs` lines 462-490): `transfer_from(...).unwrap()`,
then a `Cw721ReceiveMsg` is attached (dropped here). -/
def send_nft (s : State) (sender contract : String) (amountOrId : Nat) :
    Except Failure State :=
  unwrapR (transfer_from s sender sender contract amountOrId)

/-- Model of `set_whitelist` (`execute.rs` lines 138-168): owner-only; enabling first
force-burns every token of the target (one `_burn` per element of the owned
sequence loaded before the loop), then stores the flag. -/
def set_whitelist (s : State) (sender target : String) (st : Bool) :
    Except Failure State :=
  if sender ≠ s.owner then .error (.err .unauthorized) else
  match (if st then burnN target (s.owned target).length s else .ok s :
          Except Failure State) with
  | .error e => .error e
  | .ok s1 => .ok { s1 with whitelist := setS s1.whitelist target st }

/-- Model of `set_lock` (`execute.rs` lines 170-189): only the token's current owner
may set the lock flag. -/
def set_lock (s : State) (sender : String) (target : Nat) (st : Bool) :
    Except Failure State :=
  if sender ≠ (s.ownerOf target).getD "" then .error (.err .unauthorized) else
  .ok { s with locked := setN s.locked target st }

/-- Model of `set_base_token_uri` (`execute.rs` lines 191-204). -/
def set_base_token_uri (s : State) (sender uri : String) :
    Except Failure State :=
  if sender ≠ s.owner then .error (.err .unauthorized) else
  .ok { s with baseTokenUri := uri }

/-- The `generate_nft_*_event` handlers (`execute.rs` lines 644-700): only
callable by the contract itself; attribute-only responses, no state change. -/
def generate_event (envAddr : String) (s : State) (sender : String) :
    Except Failure State :=
  if sender ≠ envAddr then .error (.err .unauthorized) else .ok s

/-- The `ExecuteMsg` variants of `msg.rs` that reach the ledger (binary
payloads and `Expiration` arguments are dropped: the code ignores them). -/
inductive Msg where
  | transferFromM (owner recipient : String) (amount : Nat)
  | transferM (recipient : String) (amount : Nat)
  | transferNft (recipient : String) (tokenId : Nat)
  | sendM (contract : String) (amount : Nat)
  | sendNft (contract : String) (tokenId : Nat)
  | increaseAllowance (spender : String) (amount : Nat)
  | approveM (spender : String) (tokenId : Nat)
  | approveAll (operator : String)
  | revokeAll (operator : String)
  | generateNftEvent
  | generateNftMintEvent
  | generateNftBurnEvent
  | setWhitelist (target : String) (st : Bool)
  | setLock (tokenId : Nat) (st : Bool)
  | setBaseTokenUri (uri : String)

/-- Model of `execute` (`execute.rs` lines 36-136): message dispatch.  `envAddr` is
`env.contract.address`, `sender` is the host-authenticated `info.sender`.
`IncreaseAllowance` routes to `approve`; `Transfer` and `Send` use the caller
as sender; `TransferNft`/`SendNft` are `transfer_from` with caller as owner. -/
def execute (envAddr : String) (s : State) (sender : String) (m : Msg) :
    Except Failure State :=
  match m with
  | .transferFromM owner recipient amount => transfer_from s sender owner recipient amount
  | .transferM recipient amount => transfer s sender recipient amount
  | .transferNft recipient tokenId => transfer_from s sender sender recipient tokenId
  | .sendM contract amount => send s sender contract amount
  | .sendNft contract tokenId => send_nft s sender contract tokenId
  | .increaseAllowance spender amount => approve s sender spender amount
  | .approveM spender tokenId => approve s sender spender tokenId
  | .approveAll operator => approve_all s sender operator
  | .revokeAll operator => revoke_all s sender operator
  | .generateNftEvent => generate_event envAddr s sender
  | .generateNftMintEvent => generate_event envAddr s sender
  | .generateNftBurnEvent => generate_event envAddr s sender
  | .setWhitelist target st => set_whitelist s sender target st
  | .setLock tokenId st => set_lock s sender tokenId st
  | .setBaseTokenUri uri => set_base_token_uri s sender uri

/-- Host-level effect of one call: the new state on success, the unchanged
pre-state when the call returns an error or panics (the host executes each
call in an all-or-nothing transaction, spec §5/§7). -/
def execStep (envAddr : String) (s : State) (sender : String) (m : Msg) : State :=
  match execute envAddr s sender m with
  | .ok s' => s'
  | .error _ => s

/-- States reachable from `s₀` by any sequence of public calls. -/
inductive ReachableFrom (envAddr : String) (s₀ : State) : State → Prop where
  | refl : ReachableFrom envAddr s₀ s₀
  | step (s : State) (sender : String) (m : Msg) :
      ReachableFrom envAddr s₀ s → ReachableFrom envAddr s₀ (execStep envAddr s sender m)

/-- No identity appears twice in the balance ledger. -/
def keysND (m : List (String × Nat)) : Prop :=
  (m.map (fun p => p.1)).Nodup

/-- The state produced by a successful `_burn` of token `id` from `frm`. -/
def burnResult (s : State) (frm : String) (id : Nat) : State :=
  { s with owned := setS s.owned frm (s.owned frm).dropLast
           ownedIndex := setN s.ownedIndex id none
           ownerOf := setN s.ownerOf id none
           getApproved := setN s.getApproved id none }

/-- The state produced by a successful `_mint` to `dst`. -/
def mintResult (s : State) (dst : String) : State :=
  { s with minted := s.minted + 1
           ownerOf := setN s.ownerOf (s.minted + 1) (some dst)
           owned := setS s.owned dst (s.owned dst ++ [s.minted + 1])
           ownedIndex := setN s.ownedIndex (s.minted + 1) (some (s.owned dst).length) }

/-- Balances after the debit/credit writes of `_transfer`. -/
@[reducible] def stage2 (s : State) (frm dst : String) (amount : Nat) : State :=
  { s with
      balances := balSet (balSet s.balances frm (balGet s.balances frm - amount)) dst
        (balGet (balSet s.balances frm (balGet s.balances frm - amount)) dst + amount) }

/-- The state produced by a successful token-id branch of `transfer_from`
(`amount_or_id <= minted`), with `updated_id` the last element of the
sender's owned sequence. -/
@[reducible] def tokResult (s : State) (frm dst : String) (k updated_id : Nat) : State :=
  let b2 := balSet (balSet s.balances frm (balGet s.balances frm - get_unit s)) dst
      (balGet (balSet s.balances frm (balGet s.balances frm - get_unit s)) dst + get_unit s)
  let p := (s.ownedIndex k).getD 0
  let vec' := ((s.owned frm).set p updated_id).dropLast
  let o1 := setS s.owned frm vec'
  let to_owned := o1 dst ++ [k]
  { s with balances := b2
           ownerOf := setN s.ownerOf k (some dst)
           getApproved := setN s.getApproved k none
           owned := setS o1 dst to_owned
           ownedIndex := setN (setN s.ownedIndex updated_id (some p)) k
             (some (to_owned.length - 1)) }

/-- The allowance-deduction stage of a fractional `transfer_from`. -/
@[reducible] def allowStage (s : State) (frm sender : String) (amt : Nat) : State :=
  { s with
      allowance := setP s.allowance (frm, sender) (s.allowance (frm, sender) - amt) }

/-- A small in-sync state: "D" owns tokens 1 and 2, balance 2, unit 1. -/
def sSync : State where
  owner := "C"
  name := "t"
  symbol := "T"
  baseTokenUri := ""
  decimals := 0
  totalSupply := 5
  minted := 2
  whitelist := fun _ => false
  getApproved := fun _ => none
  allowance := fun _ => 0
  balances := [("D", 2), ("C", 3)]
  ownerOf := setN (setN (fun _ => none) 1 (some "D")) 2 (some "D")
  owned := setS (fun _ => []) "D" [1, 2]
  ownedIndex := setN (setN (fun _ => none) 1 (some 0)) 2 (some 1)
  approvedForAll := fun _ => false
  locked := fun _ => false

/-- Scenario B state: "D" owns exactly token 1, locked, balance 1 (unit 1). -/
def sLocked : State where
  owner := "C"
  name := "t"
  symbol := "T"
  baseTokenUri := ""
  decimals := 0
  totalSupply := 5
  minted := 1
  whitelist := fun _ => false
  getApproved := fun _ => none
  allowance := fun _ => 0
  balances := [("D", 1), ("C", 4)]
  ownerOf := setN (fun _ => none) 1 (some "D")
  owned := setS (fun _ => []) "D" [1]
  ownedIndex := setN (fun _ => none) 1 (some 0)
  approvedForAll := fun _ => false
  locked := setN (fun _ => false) 1 true

/-- Every token id in an owned sequence has its stored index equal to its
position in that sequence. -/
def InvIdx (ow : String → List Nat) (oi : Nat → Option Nat) : Prop :=
  ∀ (a : String) (i id : Nat), (ow a)[i]? = some id → oi id = some i

/-- Every id in an owned sequence is recorded as owned by that identity. -/
def InvOwn (ow : String → List Nat) (oo : Nat → Option String) : Prop :=
  ∀ (a : String) (id : Nat), id ∈ ow a → oo id = some a

/-- Every recorded ownership is reflected in the owner's owned sequence. -/
def InvMem (ow : String → List Nat) (oo : Nat → Option String) : Prop :=
  ∀ (a : String) (id : Nat), oo id = some a → id ∈ ow a

/-- No token is owned by the empty identity (the code treats the empty
string as "absent owner"). -/
def InvNE (oo : Nat → Option String) : Prop :=
  ∀ id : Nat, oo id ≠ some ""

/-- The combined structural invariant of the ownership set manager. -/
def InvS (s : State) : Prop :=
  InvIdx s.owned s.ownedIndex ∧ InvOwn s.owned s.ownerOf ∧
  InvMem s.owned s.ownerOf ∧ InvNE s.ownerOf

/-! ### Balance-ledger lemmas -/

theorem balGet_cons (a : String × Nat) (m : List (String × Nat)) (k : String) :
    balGet (a :: m) k = if a.1 = k then a.2 else balGet m k := by
  by_cases h : a.1 = k <;> simp [balGet, List.find?, h]

theorem balGet_balSet_self (m : List (String × Nat)) (k : String) (v : Nat) :
    balGet (balSet m k v) k = v := by
  simp [balSet, balGet_cons]

theorem balGet_eraseP (m : List (String × Nat)) (k k' : String) (h : k' ≠ k) :
    balGet (m.eraseP (fun p => p.1 = k)) k' = balGet m k' := by
  induction m with
  | nil => rfl
  | cons a m ih =>
    by_cases ha : a.1 = k
    · rw [List.eraseP_cons_of_pos (by simp [ha]), balGet_cons]
      have : ¬ a.1 = k' := by rw [ha]; exact fun hh => h hh.symm
      simp [this]
    · rw [List.eraseP_cons_of_neg (by simp [ha]), balGet_cons, balGet_cons, ih]

theorem balGet_balSet_ne (m : List (String × Nat)) (k k' : String) (v : Nat)
    (h : k' ≠ k) : balGet (balSet m k v) k' = balGet m k' := by
  rw [balSet, balGet_cons]
  rw [if_neg (show ¬ k = k' from fun hh => h hh.symm)]
  exact balGet_eraseP m k k' h

theorem balSum_eraseP (m : List (String × Nat)) (k : String) :
    balSum (m.eraseP (fun p => p.1 = k)) + balGet m k = balSum m := by
  induction m with
  | nil => rfl
  | cons a m ih =>
    by_cases ha : a.1 = k
    · rw [List.eraseP_cons_of_pos (by simp [ha]), balGet_cons, if_pos ha]
      simp [balSum]; omega
    · rw [List.eraseP_cons_of_neg (by simp [ha]), balGet_cons, if_neg ha]
      simp only [balSum, List.map_cons, List.sum_cons] at ih ⊢
      omega

theorem balSum_balSet (m : List (String × Nat)) (k : String) (v : Nat) :
    balSum (balSet m k v) + balGet m k = balSum m + v := by
  have h := balSum_eraseP m k
  simp only [balSet, balSum, List.map_cons, List.sum_cons] at h ⊢
  omega

/-- The two balance writes of a transfer preserve the ledger sum. -/
theorem balSum_move (m : List (String × Nat)) (frm dst : String) (amount : Nat)
    (h : amount ≤ balGet m frm) :
    balSum (balSet (balSet m frm (balGet m frm - amount)) dst
      (balGet (balSet m frm (balGet m frm - amount)) dst + amount)) = balSum m := by
  have e1 := balSum_balSet m frm (balGet m frm - amount)
  have e2 := balSum_balSet (balSet m frm (balGet m frm - amount)) dst
      (balGet (balSet m frm (balGet m frm - amount)) dst + amount)
  omega

theorem keysND_eraseP (m : List (String × Nat)) (k : String) (h : keysND m) :
    keysND (m.eraseP (fun p => p.1 = k)) := by
  induction m with
  | nil => exact h
  | cons a m ih =>
    simp only [keysND, List.map_cons, List.nodup_cons] at h
    by_cases ha : a.1 = k
    · rw [List.eraseP_cons_of_pos (by simp [ha])]; exact h.2
    · rw [List.eraseP_cons_of_neg (by simp [ha])]
      simp only [keysND, List.map_cons, List.nodup_cons]
      refine ⟨fun hc => h.1 ?_, ih h.2⟩
      have : (m.eraseP (fun p => p.1 = k)).Sublist m := List.eraseP_sublist m
      exact (this.map (fun p => p.1)).mem hc

theorem notMem_keys_eraseP (m : List (String × Nat)) (k : String) (h : keysND m) :
    k ∉ (m.eraseP (fun p => p.1 = k)).map (fun p => p.1) := by
  induction m with
  | nil => simp
  | cons a m ih =>
    simp only [keysND, List.map_cons, List.nodup_cons] at h
    by_cases ha : a.1 = k
    · rw [List.eraseP_cons_of_pos (by simp [ha])]
      subst ha; exact h.1
    · rw [List.eraseP_cons_of_neg (by simp [ha])]
      simp only [List.map_cons, List.mem_cons]
      rintro (hc | hc)
      · exact ha hc.symm
      · exact ih h.2 hc

theorem keysND_balSet (m : List (String × Nat)) (k : String) (v : Nat)
    (h : keysND m) : keysND (balSet m k v) := by
  simp only [keysND, balSet, List.map_cons, List.nodup_cons]
  exact ⟨notMem_keys_eraseP m k h, keysND_eraseP m k h⟩

/-! ### Characterization of `_burn`, `_mint` and the mint/burn loops -/

theorem _burn_ok_iff (s : State) (frm : String) (s' : State) :
    _burn s frm = .ok s' ↔
      frm ≠ "" ∧ ∃ id, (s.owned frm).getLast? = some id ∧
        s.locked id = false ∧ s' = burnResult s frm id := by
  unfold _burn
  by_cases hf : frm = ""
  · simp [hf]
  · rw [if_neg hf]
    cases hL : (s.owned frm).getLast? with
    | none => simp [hL]
    | some id =>
      by_cases hl : s.locked id
      · simp [hL, hl]
      · simp [hL, hl, burnResult]
        exact ⟨fun h => ⟨hf, h.symm⟩, fun h => h.2.symm⟩

theorem _mint_ok_iff (s : State) (dst : String) (s' : State) :
    _mint s dst = .ok s' ↔
      dst ≠ "" ∧ (s.ownerOf (s.minted + 1)).getD "" = "" ∧ s' = mintResult s dst := by
  unfold _mint
  by_cases hf : dst = ""
  · simp [hf]
  · rw [if_neg hf]
    by_cases ho : (s.ownerOf (s.minted + 1)).getD "" = ""
    · rw [if_neg (by simpa using ho)]
      simp [mintResult, ho]
      exact ⟨fun h => ⟨hf, h.symm⟩, fun h => h.2.symm⟩
    · rw [if_pos (by simpa using ho)]
      simp [hf, ho]

/-- Fields of `burnResult` (record projections, stated once for reuse). -/
theorem burnResult_owned_ne (s : State) (frm : String) (id : Nat) (x : String)
    (hx : x ≠ frm) : (burnResult s frm id).owned x = s.owned x := by
  simp [burnResult, setS, hx]

theorem burnN_fields (frm : String) (n : Nat) (s s' : State)
    (h : burnN frm n s = .ok s') :
    s'.balances = s.balances ∧ s'.minted = s.minted ∧ s'.whitelist = s.whitelist ∧
    s'.decimals = s.decimals ∧ s'.totalSupply = s.totalSupply ∧
    s'.allowance = s.allowance ∧ s'.approvedForAll = s.approvedForAll ∧
    s'.locked = s.locked ∧ s'.owner = s.owner ∧
    (∀ x, x ≠ frm → s'.owned x = s.owned x) := by
  induction n generalizing s with
  | zero =>
    obtain rfl : s = s' := by simpa [burnN] using h
    exact ⟨rfl, rfl, rfl, rfl, rfl, rfl, rfl, rfl, rfl, fun _ _ => rfl⟩
  | succ n ih =>
    rw [burnN] at h
    cases hb : _burn s frm with
    | error e => rw [hb] at h; cases h
    | ok s1 =>
      rw [hb] at h
      obtain ⟨-, id, -, -, rfl⟩ := (_burn_ok_iff s frm s1).1 hb
      obtain ⟨h1, h2, h3, h4, h5, h6, h7, h8, h9, h10⟩ := ih _ h
      refine ⟨h1, h2, h3, h4, h5, h6, h7, h8, h9, fun x hx => ?_⟩
      rw [h10 x hx, burnResult_owned_ne s frm id x hx]

theorem mintN_fields (dst : String) (n : Nat) (s s' : State)
    (h : mintN dst n s = .ok s') :
    s'.balances = s.balances ∧ s'.minted = s.minted + n ∧ s'.whitelist = s.whitelist ∧
    s'.decimals = s.decimals ∧ s'.totalSupply = s.totalSupply ∧
    s'.allowance = s.allowance ∧ s'.approvedForAll = s.approvedForAll ∧
    s'.locked = s.locked ∧ s'.owner = s.owner ∧
    (∀ x, x ≠ dst → s'.owned x = s.owned x) ∧
    (s'.owned dst).length = (s.owned dst).length + n := by
  induction n generalizing s with
  | zero =>
    obtain rfl : s = s' := by simpa [mintN] using h
    exact ⟨rfl, rfl, rfl, rfl, rfl, rfl, rfl, rfl, rfl, fun _ _ => rfl, rfl⟩
  | succ n ih =>
    rw [mintN] at h
    cases hb : _mint s dst with
    | error e => rw [hb] at h; cases h
    | ok s1 =>
      rw [hb] at h
      obtain ⟨-, -, rfl⟩ := (_mint_ok_iff s dst s1).1 hb
      obtain ⟨h1, h2, h3, h4, h5, h6, h7, h8, h9, h10, h11⟩ := ih _ h
      refine ⟨h1, by simp [mintResult] at h2; omega, h3, h4, h5, h6, h7, h8, h9,
        fun x hx => ?_, ?_⟩
      · rw [h10 x hx]; simp [mintResult, setS, hx]
      · rw [h11]; simp [mintResult, setS]; omega

theorem burnN_owned (frm : String) (n : Nat) (s s' : State)
    (h : burnN frm n s = .ok s') :
    n ≤ (s.owned frm).length ∧
    s'.owned frm = (s.owned frm).take ((s.owned frm).length - n) := by
  induction n generalizing s with
  | zero =>
    obtain rfl : s = s' := by simpa [burnN] using h
    simp
  | succ n ih =>
    rw [burnN] at h
    cases hb : _burn s frm with
    | error e => rw [hb] at h; cases h
    | ok s1 =>
      rw [hb] at h
      obtain ⟨-, id, hL, -, rfl⟩ := (_burn_ok_iff s frm s1).1 hb
      have hne : s.owned frm ≠ [] := by
        intro hnil; rw [hnil] at hL; cases hL
      have hlen : 0 < (s.owned frm).length := List.length_pos.2 hne
      have howned1 : (burnResult s frm id).owned frm = (s.owned frm).dropLast := by
        simp [burnResult, setS]
      obtain ⟨ih1, ih2⟩ := ih _ h
      rw [howned1] at ih1 ih2
      rw [List.length_dropLast] at ih1 ih2
      refine ⟨by omega, ?_⟩
      rw [ih2, List.dropLast_eq_take, List.take_take]
      congr 1
      omega

theorem burnN_ownerOf (frm : String) (n : Nat) (s s' : State)
    (h : burnN frm n s = .ok s') :
    (∀ id, id ∈ (s.owned frm).drop ((s.owned frm).length - n) → s'.ownerOf id = none) ∧
    (∀ id, id ∉ (s.owned frm).drop ((s.owned frm).length - n) →
      s'.ownerOf id = s.ownerOf id) := by
  induction n generalizing s with
  | zero =>
    obtain rfl : s = s' := by simpa [burnN] using h
    constructor
    · intro id hid
      rw [Nat.sub_zero, List.drop_length] at hid
      cases hid
    · intro id _; rfl
  | succ n ih =>
    rw [burnN] at h
    cases hb : _burn s frm with
    | error e => rw [hb] at h; cases h
    | ok s1 =>
      rw [hb] at h
      obtain ⟨-, id0, hL, -, rfl⟩ := (_burn_ok_iff s frm s1).1 hb
      have hne : s.owned frm ≠ [] := by
        intro hnil; rw [hnil] at hL; cases hL
      have hlen : 0 < (s.owned frm).length := List.length_pos.2 hne
      have hlast : (s.owned frm).getLast hne = id0 := by
        have := List.getLast?_eq_getLast (s.owned frm) hne
        rw [hL] at this
        exact Option.some_inj.mp this.symm
      have hsplit : (s.owned frm).dropLast ++ [id0] = s.owned frm := by
        rw [← hlast]; exact List.dropLast_append_getLast hne
      have howned1 : (burnResult s frm id0).owned frm = (s.owned frm).dropLast := by
        simp [burnResult, setS]
      have hdropsplit :
          (s.owned frm).drop ((s.owned frm).length - (n + 1)) =
            (s.owned frm).dropLast.drop ((s.owned frm).dropLast.length - n) ++ [id0] := by
        have h1 : (s.owned frm).drop ((s.owned frm).length - (n + 1)) =
            ((s.owned frm).dropLast ++ [id0]).drop ((s.owned frm).length - (n + 1)) := by
          rw [hsplit]
        rw [h1, List.drop_append_of_le_length (by rw [List.length_dropLast]; omega)]
        congr 2
        rw [List.length_dropLast]
        omega
      obtain ⟨ih1, ih2⟩ := ih _ h
      rw [howned1] at ih1 ih2
      have hOwn1 : ∀ x, (burnResult s frm id0).ownerOf x = setN s.ownerOf id0 none x :=
        fun x => rfl
      constructor
      · intro id hid
        rw [hdropsplit, List.mem_append] at hid
        rcases hid with hid | hid
        · exact ih1 id hid
        · rw [List.mem_singleton] at hid
          subst hid
          by_cases hmem : id ∈ (s.owned frm).dropLast.drop ((s.owned frm).dropLast.length - n)
          · exact ih1 id hmem
          · rw [ih2 id hmem, hOwn1, setN]
            simp
      · intro id hid
        rw [hdropsplit, List.mem_append, not_or, List.mem_singleton] at hid
        rw [ih2 id hid.1, hOwn1, setN]
        simp [hid.2]

theorem _transfer_ok_elim (s : State) (frm dst : String) (amount : Nat) (s' : State)
    (h : _transfer s frm dst amount = .ok s') :
    frm ≠ "" ∧ dst ≠ "" ∧ amount ≤ balGet s.balances frm ∧
    ∃ s3, (if s.whitelist frm then .ok (stage2 s frm dst amount) else
            burnN frm (balGet s.balances frm / get_unit s -
              balGet (stage2 s frm dst amount).balances frm / get_unit s)
              (stage2 s frm dst amount) : Except Failure State) = .ok s3 ∧
          (if s.whitelist dst then .ok s3 else
            mintN dst (balGet s3.balances dst / get_unit s -
              balGet s.balances dst / get_unit s) s3) = .ok s' := by
  unfold _transfer at h
  by_cases hf : frm = ""
  · simp [addrValidate, hf] at h
  · by_cases hd : dst = ""
    · simp [addrValidate, hf, hd] at h
    · simp only [addrValidate, if_neg hf, if_neg hd] at h
      by_cases hle : amount > balGet s.balances frm
      · rw [if_pos hle] at h; cases h
      · rw [if_neg hle] at h
        refine ⟨hf, hd, by omega, ?_⟩
        split at h
        next e heq => simp at h
        next s3 heq => exact ⟨s3, heq, h⟩

theorem stage2_balGet_frm_ne (s : State) (frm dst : String) (amount : Nat)
    (hne : frm ≠ dst) :
    balGet (stage2 s frm dst amount).balances frm = balGet s.balances frm - amount := by
  show balGet (balSet _ dst _) frm = _
  rw [balGet_balSet_ne _ dst frm _ hne, balGet_balSet_self]

theorem stage2_balGet_dst_ne (s : State) (frm dst : String) (amount : Nat)
    (hne : frm ≠ dst) :
    balGet (stage2 s frm dst amount).balances dst = balGet s.balances dst + amount := by
  show balGet (balSet _ dst _) dst = _
  rw [balGet_balSet_self, balGet_balSet_ne _ frm dst _ (Ne.symm hne)]

theorem stage2_balGet_eq (s : State) (frm : String) (amount : Nat)
    (hle : amount ≤ balGet s.balances frm) :
    balGet (stage2 s frm frm amount).balances frm = balGet s.balances frm := by
  show balGet (balSet _ frm _) frm = _
  rw [balGet_balSet_self, balGet_balSet_self]
  omega

theorem stage2_balGet_other (s : State) (frm dst : String) (amount : Nat) (x : String)
    (hx1 : x ≠ frm) (hx2 : x ≠ dst) :
    balGet (stage2 s frm dst amount).balances x = balGet s.balances x := by
  show balGet (balSet _ dst _) x = _
  rw [balGet_balSet_ne _ dst x _ hx2, balGet_balSet_ne _ frm x _ hx1]

theorem _transfer_sync (s : State) (frm dst : String) (amount : Nat) (s' : State)
    (hwf : s.whitelist frm = false) (hwt : s.whitelist dst = false)
    (hlf : (s.owned frm).length = balGet s.balances frm / get_unit s)
    (hlt : (s.owned dst).length = balGet s.balances dst / get_unit s)
    (h : _transfer s frm dst amount = .ok s') :
    (s'.owned frm).length = balGet s'.balances frm / get_unit s ∧
    (s'.owned dst).length = balGet s'.balances dst / get_unit s ∧
    s'.decimals = s.decimals := by
  obtain ⟨hf, hd, hle, s3, hmid, hfin⟩ := _transfer_ok_elim s frm dst amount s' h
  rw [if_neg (by simp [hwf])] at hmid
  rw [if_neg (by simp [hwt])] at hfin
  by_cases hfd : frm = dst
  · subst hfd
    rw [stage2_balGet_eq s frm amount hle, Nat.sub_self] at hmid
    obtain rfl : stage2 s frm frm amount = s3 := by simpa [burnN] using hmid
    rw [stage2_balGet_eq s frm amount hle, Nat.sub_self] at hfin
    obtain rfl : stage2 s frm frm amount = s' := by simpa [mintN] using hfin
    refine ⟨?_, ?_, rfl⟩ <;> rw [stage2_balGet_eq s frm amount hle] <;> exact hlf
  · have hbf := stage2_balGet_frm_ne s frm dst amount hfd
    have hbd := stage2_balGet_dst_ne s frm dst amount hfd
    rw [hbf] at hmid
    obtain ⟨hc1le, howned3⟩ := burnN_owned frm _ _ s3 hmid
    obtain ⟨h3bal, -, -, h3dec, -, -, -, -, -, h3owned⟩ := burnN_fields frm _ _ s3 hmid
    have h3dst : balGet s3.balances dst = balGet s.balances dst + amount := by
      rw [h3bal, hbd]
    rw [h3dst] at hfin
    obtain ⟨h4bal, -, -, h4dec, -, -, -, -, -, h4owned, h4len⟩ := mintN_fields dst _ _ s' hfin
    have hsowned : (stage2 s frm dst amount).owned frm = s.owned frm := rfl
    rw [hsowned] at howned3 hc1le
    have hdiv1 : (balGet s.balances frm - amount) / get_unit s ≤
        balGet s.balances frm / get_unit s :=
      Nat.div_le_div_right (Nat.sub_le _ _)
    have hdiv2 : balGet s.balances dst / get_unit s ≤
        (balGet s.balances dst + amount) / get_unit s :=
      Nat.div_le_div_right (Nat.le_add_right _ _)
    refine ⟨?_, ?_, by rw [h4dec, h3dec]⟩
    · rw [h4owned frm hfd, howned3, List.length_take]
      have hbal' : balGet s'.balances frm = balGet s.balances frm - amount := by
        rw [h4bal, h3bal, hbf]
      rw [hbal']
      omega
    · have h3ownedDst : s3.owned dst = s.owned dst := h3owned dst (Ne.symm hfd)
      rw [h4len, h3ownedDst]
      have hbal' : balGet s'.balances dst = balGet s.balances dst + amount := by
        rw [h4bal, h3dst]
      rw [hbal']
      omega

theorem transfer_from_tok_elim (s : State) (sender frm dst : String) (k : Nat) (s' : State)
    (hk : k ≤ s.minted) (h : transfer_from s sender frm dst k = .ok s') :
    frm ≠ "" ∧ dst ≠ "" ∧ frm = (s.ownerOf k).getD "" ∧
    (sender = frm ∨ s.approvedForAll (frm, sender) = true ∨
      sender = (s.getApproved k).getD "") ∧
    s.whitelist dst = false ∧ get_unit s ≤ balGet s.balances frm ∧
    ∃ updated_id, (s.owned frm).getLast? = some updated_id ∧
      (s.ownedIndex k).getD 0 < (s.owned frm).length ∧
      s' = tokResult s frm dst k updated_id := by
  unfold transfer_from at h
  by_cases hf : frm = ""
  · simp [addrValidate, hf] at h
  · by_cases hd : dst = ""
    · simp [addrValidate, hf, hd] at h
    · simp only [addrValidate, if_neg hf, if_neg hd] at h
      rw [if_pos hk] at h
      by_cases how : frm ≠ (s.ownerOf k).getD ""
      · rw [if_pos how] at h; cases h
      · rw [if_neg how] at h
        push_neg at how
        by_cases hauth : sender ≠ frm ∧ ¬(s.approvedForAll (frm, sender) = true) ∧
            sender ≠ (s.getApproved k).getD ""
        · rw [if_pos hauth] at h; cases h
        · rw [if_neg hauth] at h
          by_cases hwl : s.whitelist dst = true
          · rw [if_pos hwl] at h; cases h
          · rw [if_neg hwl] at h
            by_cases hbal : get_unit s > balGet s.balances frm
            · rw [if_pos hbal] at h; cases h
            · rw [if_neg hbal] at h
              split at h
              next heqL => cases h
              next updated_id heqL =>
                split at h
                next hidx =>
                  refine ⟨hf, hd, how, by tauto, by simpa using hwl, by omega,
                    updated_id, heqL, hidx, (Except.ok.inj h).symm⟩
                next hidx => cases h

theorem transfer_from_frac_elim (s : State) (sender frm dst : String) (amt : Nat)
    (s' : State) (hgt : ¬ amt ≤ s.minted)
    (h : transfer_from s sender frm dst amt = .ok s') :
    ∃ s1 : State, (s1 = s ∨ s1 = allowStage s frm sender amt) ∧
      _transfer s1 frm dst amt = .ok s' := by
  unfold transfer_from at h
  by_cases hf : frm = ""
  · simp [addrValidate, hf] at h
  · by_cases hd : dst = ""
    · simp [addrValidate, hf, hd] at h
    · simp only [addrValidate, if_neg hf, if_neg hd] at h
      rw [if_neg hgt] at h
      split at h
      next e heq => cases h
      next s1 heq =>
        have ht : _transfer s1 frm dst amt = .ok s' := by
          cases hr : _transfer s1 frm dst amt with
          | error e => rw [hr] at h; simp [unwrapR] at h
          | ok a => rw [hr] at h; simp only [unwrapR] at h; rw [Except.ok.inj h]
        refine ⟨s1, ?_, ht⟩
        split at heq
        · split at heq
          · cases heq
          · exact Or.inr (Except.ok.inj heq).symm
        · exact Or.inl (Except.ok.inj heq).symm

theorem _transfer_balances (s : State) (frm dst : String) (amount : Nat) (s' : State)
    (h : _transfer s frm dst amount = .ok s') :
    balSum s'.balances = balSum s.balances ∧ s'.totalSupply = s.totalSupply ∧
    (keysND s.balances → keysND s'.balances) := by
  obtain ⟨hf, hd, hle, s3, hmid, hfin⟩ := _transfer_ok_elim s frm dst amount s' h
  have hsum2 : balSum (stage2 s frm dst amount).balances = balSum s.balances :=
    balSum_move s.balances frm dst amount hle
  have hkey2 : keysND s.balances → keysND (stage2 s frm dst amount).balances :=
    fun hk => keysND_balSet _ dst _ (keysND_balSet _ frm _ hk)
  have h3 : s3.balances = (stage2 s frm dst amount).balances ∧
      s3.totalSupply = s.totalSupply := by
    split at hmid
    · obtain rfl : stage2 s frm dst amount = s3 := Except.ok.inj hmid
      exact ⟨rfl, rfl⟩
    · obtain ⟨hb, -, -, -, ht, -⟩ := burnN_fields frm _ _ s3 hmid
      exact ⟨hb, ht⟩
  have h4 : s'.balances = s3.balances ∧ s'.totalSupply = s3.totalSupply := by
    split at hfin
    · obtain rfl : s3 = s' := Except.ok.inj hfin
      exact ⟨rfl, rfl⟩
    · obtain ⟨hb, -, -, -, ht, -⟩ := mintN_fields dst _ _ s' hfin
      exact ⟨hb, ht⟩
  refine ⟨?_, ?_, ?_⟩
  · rw [h4.1, h3.1, hsum2]
  · rw [h4.2, h3.2]
  · intro hk
    rw [h4.1, h3.1]
    exact hkey2 hk

theorem transfer_from_balances (s : State) (sender frm dst : String) (a : Nat)
    (s' : State) (h : transfer_from s sender frm dst a = .ok s') :
    balSum s'.balances = balSum s.balances ∧ s'.totalSupply = s.totalSupply ∧
    (keysND s.balances → keysND s'.balances) := by
  by_cases hk : a ≤ s.minted
  · obtain ⟨-, -, -, -, -, hle, updated_id, -, -, rfl⟩ :=
      transfer_from_tok_elim s sender frm dst a s' hk h
    refine ⟨balSum_move s.balances frm dst (get_unit s) hle, rfl, ?_⟩
    exact fun hkk => keysND_balSet _ dst _ (keysND_balSet _ frm _ hkk)
  · obtain ⟨s1, hs1, ht⟩ := transfer_from_frac_elim s sender frm dst a s' hk h
    obtain ⟨h1, h2, h3⟩ := _transfer_balances s1 frm dst a s' ht
    have hb : s1.balances = s.balances := by
      rcases hs1 with rfl | rfl <;> rfl
    have hts : s1.totalSupply = s.totalSupply := by
      rcases hs1 with rfl | rfl <;> rfl
    refine ⟨by rw [h1, hb], by rw [h2, hts], fun hkk => by rw [← hb] at hkk; exact h3 hkk⟩

theorem approve_ok_elim (s : State) (sender spender : String) (a : Nat) (s' : State)
    (h : approve s sender spender a = .ok s') :
    s'.balances = s.balances ∧ s'.totalSupply = s.totalSupply ∧ s'.owned = s.owned ∧
    s'.ownedIndex = s.ownedIndex ∧ s'.ownerOf = s.ownerOf := by
  unfold approve at h
  split at h
  · simp only [ne_eq] at h
    split at h
    · cases h
    · obtain rfl := Except.ok.inj h
      exact ⟨rfl, rfl, rfl, rfl, rfl⟩
  · obtain rfl := Except.ok.inj h
    exact ⟨rfl, rfl, rfl, rfl, rfl⟩

theorem approve_all_ok_elim (s : State) (sender operator : String) (s' : State)
    (h : approve_all s sender operator = .ok s') :
    s'.balances = s.balances ∧ s'.totalSupply = s.totalSupply ∧ s'.owned = s.owned ∧
    s'.ownedIndex = s.ownedIndex ∧ s'.ownerOf = s.ownerOf := by
  unfold approve_all at h
  split at h
  next e heq => cases h
  next a heq =>
    obtain rfl := Except.ok.inj h
    exact ⟨rfl, rfl, rfl, rfl, rfl⟩

theorem revoke_all_ok_elim (s : State) (sender operator : String) (s' : State)
    (h : revoke_all s sender operator = .ok s') :
    s'.balances = s.balances ∧ s'.totalSupply = s.totalSupply ∧ s'.owned = s.owned ∧
    s'.ownedIndex = s.ownedIndex ∧ s'.ownerOf = s.ownerOf := by
  unfold revoke_all at h
  split at h
  next e heq => cases h
  next a heq =>
    obtain rfl := Except.ok.inj h
    exact ⟨rfl, rfl, rfl, rfl, rfl⟩

theorem set_lock_ok_elim (s : State) (sender : String) (t : Nat) (st : Bool) (s' : State)
    (h : set_lock s sender t st = .ok s') :
    s'.balances = s.balances ∧ s'.totalSupply = s.totalSupply ∧ s'.owned = s.owned ∧
    s'.ownedIndex = s.ownedIndex ∧ s'.ownerOf = s.ownerOf := by
  unfold set_lock at h
  split at h
  · cases h
  · obtain rfl := Except.ok.inj h
    exact ⟨rfl, rfl, rfl, rfl, rfl⟩

theorem set_base_token_uri_ok_elim (s : State) (sender uri : String) (s' : State)
    (h : set_base_token_uri s sender uri = .ok s') :
    s'.balances = s.balances ∧ s'.totalSupply = s.totalSupply ∧ s'.owned = s.owned ∧
    s'.ownedIndex = s.ownedIndex ∧ s'.ownerOf = s.ownerOf := by
  unfold set_base_token_uri at h
  split at h
  · cases h
  · obtain rfl := Except.ok.inj h
    exact ⟨rfl, rfl, rfl, rfl, rfl⟩

theorem generate_event_ok_elim (envAddr : String) (s : State) (sender : String) (s' : State)
    (h : generate_event envAddr s sender = .ok s') : s' = s := by
  unfold generate_event at h
  split at h
  · cases h
  · exact (Except.ok.inj h).symm

theorem set_whitelist_ok_elim (s : State) (sender target : String) (st : Bool) (s' : State)
    (h : set_whitelist s sender target st = .ok s') :
    sender = s.owner ∧ ∃ s1,
      ((st = true ∧ burnN target (s.owned target).length s = .ok s1) ∨
        (st = false ∧ s1 = s)) ∧
      s' = { s1 with whitelist := setS s1.whitelist target st } := by
  unfold set_whitelist at h
  split at h
  · cases h
  next hown =>
    push_neg at hown
    split at h
    next e heq => cases h
    next s1 heq =>
      refine ⟨hown, s1, ?_, (Except.ok.inj h).symm⟩
      cases st with
      | true =>
        simp only [if_pos rfl] at heq
        exact Or.inl ⟨rfl, heq⟩
      | false =>
        simp only [Bool.false_eq_true, if_false] at heq
        exact Or.inr ⟨rfl, (Except.ok.inj heq).symm⟩

theorem unwrapR_ok_elim {α : Type} (r : Except Failure α) (a : α)
    (h : unwrapR r = .ok a) : r = .ok a := by
  cases r with
  | ok b => simpa [unwrapR] using h
  | error e => simp [unwrapR] at h

theorem execute_balances (envAddr : String) (s : State) (sender : String) (m : Msg)
    (s' : State) (h : execute envAddr s sender m = .ok s') :
    balSum s'.balances = balSum s.balances ∧ s'.totalSupply = s.totalSupply ∧
    (keysND s.balances → keysND s'.balances) := by
  cases m with
  | transferFromM o r a => exact transfer_from_balances s sender o r a s' h
  | transferM r a => exact _transfer_balances s sender r a s' h
  | transferNft r t => exact transfer_from_balances s sender sender r t s' h
  | sendM c a =>
    exact _transfer_balances s sender c a s' (unwrapR_ok_elim _ _ h)
  | sendNft c t =>
    exact transfer_from_balances s sender sender c t s' (unwrapR_ok_elim _ _ h)
  | increaseAllowance sp a =>
    obtain ⟨h1, h2, -⟩ := approve_ok_elim s sender sp a s' h
    exact ⟨by rw [h1], h2, by rw [h1]; exact id⟩
  | approveM sp t =>
    obtain ⟨h1, h2, -⟩ := approve_ok_elim s sender sp t s' h
    exact ⟨by rw [h1], h2, by rw [h1]; exact id⟩
  | approveAll op =>
    obtain ⟨h1, h2, -⟩ := approve_all_ok_elim s sender op s' h
    exact ⟨by rw [h1], h2, by rw [h1]; exact id⟩
  | revokeAll op =>
    obtain ⟨h1, h2, -⟩ := revoke_all_ok_elim s sender op s' h
    exact ⟨by rw [h1], h2, by rw [h1]; exact id⟩
  | generateNftEvent =>
    obtain rfl := generate_event_ok_elim envAddr s sender s' h
    exact ⟨rfl, rfl, id⟩
  | generateNftMintEvent =>
    obtain rfl := generate_event_ok_elim envAddr s sender s' h
    exact ⟨rfl, rfl, id⟩
  | generateNftBurnEvent =>
    obtain rfl := generate_event_ok_elim envAddr s sender s' h
    exact ⟨rfl, rfl, id⟩
  | setWhitelist target st =>
    obtain ⟨-, s1, hcase, rfl⟩ := set_whitelist_ok_elim s sender target st s' h
    rcases hcase with ⟨-, hburn⟩ | ⟨-, rfl⟩
    · obtain ⟨hb, -, -, -, ht, -⟩ := burnN_fields target _ _ s1 hburn
      exact ⟨by rw [hb], ht, by rw [hb]; exact id⟩
    · exact ⟨rfl, rfl, id⟩
  | setLock t st =>
    obtain ⟨h1, h2, -⟩ := set_lock_ok_elim s sender t st s' h
    exact ⟨by rw [h1], h2, by rw [h1]; exact id⟩
  | setBaseTokenUri uri =>
    obtain ⟨h1, h2, -⟩ := set_base_token_uri_ok_elim s sender uri s' h
    exact ⟨by rw [h1], h2, by rw [h1]; exact id⟩

theorem _burn_locked (s : State) (frm : String) (tid : Nat) (hf : frm ≠ "")
    (hL : (s.owned frm).getLast? = some tid) (hlock : s.locked tid = true) :
    _burn s frm = .error (.err .preventBurn) := by
  unfold _burn
  rw [if_neg hf]
  simp [hL, hlock]

theorem burnN_locked (frm : String) (n : Nat) (s : State) (tid : Nat) (hf : frm ≠ "")
    (hL : (s.owned frm).getLast? = some tid) (hlock : s.locked tid = true)
    (hn : 1 ≤ n) : burnN frm n s = .error (.err .preventBurn) := by
  obtain ⟨c, rfl⟩ : ∃ c, n = c + 1 := ⟨n - 1, by omega⟩
  rw [burnN, _burn_locked s frm tid hf hL hlock]

theorem _transfer_locked (s : State) (frm dst : String) (amount tid : Nat)
    (hf : frm ≠ "") (hd : dst ≠ "") (hfd : frm ≠ dst)
    (hw : s.whitelist frm = false)
    (hbal : amount ≤ balGet s.balances frm)
    (hL : (s.owned frm).getLast? = some tid) (hlock : s.locked tid = true)
    (hcnt : 1 ≤ balGet s.balances frm / get_unit s -
      (balGet s.balances frm - amount) / get_unit s) :
    _transfer s frm dst amount = .error (.err .preventBurn) := by
  unfold _transfer
  simp only [addrValidate, if_neg hf, if_neg hd]
  rw [if_neg (show ¬ amount > balGet s.balances frm by omega)]
  rw [if_neg (show ¬ s.whitelist frm = true by simp [hw])]
  rw [show balGet (stage2 s frm dst amount).balances frm = balGet s.balances frm - amount
    from stage2_balGet_frm_ne s frm dst amount hfd]
  rw [burnN_locked frm _ (stage2 s frm dst amount) tid hf hL hlock (by omega)]

/-! ### Claim theorems -/

/-- C3: for every state reachable from instantiation, the sum of all balance
ledger entries equals the total supply fixed at instantiation
(`total_native_supply * 10^decimals`, credited entirely to the creator by
`instantiate`), and the ledger keys stay pairwise distinct, so the sum of
`balance_of(x)` over all identities is preserved by every operation. -/
theorem C3_total_supply_invariant (envAddr nm sym : String) (decimals native : Nat)
    (creator : String) (s : State)
    (h : ReachableFrom envAddr (instantiate nm sym decimals native creator) s) :
    balSum s.balances = s.totalSupply ∧ s.totalSupply = native * 10 ^ decimals ∧
    keysND s.balances := by
  induction h with
  | refl =>
    refine ⟨?_, rfl, ?_⟩
    · simp [instantiate, balSum]
    · simp [instantiate, keysND]
  | step s sender m hr ih =>
    unfold execStep
    cases hx : execute envAddr s sender m with
    | error e => exact ih
    | ok s' =>
      obtain ⟨h1, h2, h3⟩ := execute_balances envAddr s sender m s' hx
      exact ⟨by rw [h1, h2, ih.1], by rw [h2, ih.2.1], h3 ih.2.2⟩

theorem C3_witness :
    balSum ((execStep "cw404" (execStep "cw404" (instantiate "t" "T" 0 1000 "C") "C"
        (.setWhitelist "C" true)) "C" (.transferM "D" 1)).balances) =
      (execStep "cw404" (execStep "cw404" (instantiate "t" "T" 0 1000 "C") "C"
        (.setWhitelist "C" true)) "C" (.transferM "D" 1)).totalSupply ∧
    (execStep "cw404" (execStep "cw404" (instantiate "t" "T" 0 1000 "C") "C"
        (.setWhitelist "C" true)) "C" (.transferM "D" 1)).totalSupply = 1000 * 10 ^ 0 ∧
    keysND (execStep "cw404" (execStep "cw404" (instantiate "t" "T" 0 1000 "C") "C"
        (.setWhitelist "C" true)) "C" (.transferM "D" 1)).balances :=
  C3_total_supply_invariant "cw404" "t" "T" 0 1000 "C" _
    (ReachableFrom.step _ "C" (.transferM "D" 1)
      (ReachableFrom.step _ "C" (.setWhitelist "C" true) ReachableFrom.refl))

/-- C1 counterexample: the claimed invariant fails on a reachable state.  The
state immediately after `instantiate` (supply 1000, decimals 0, creator "C")
is reachable by the empty sequence of operations, "C" is not exempt, yet its
owned sequence is empty while `floor(balance / unit) = 1000`. -/
theorem C1_counterexample :
    ReachableFrom "cw404" (instantiate "t" "T" 0 1000 "C")
      (instantiate "t" "T" 0 1000 "C") ∧
    (instantiate "t" "T" 0 1000 "C").whitelist "C" = false ∧
    ((instantiate "t" "T" 0 1000 "C").owned "C").length ≠
      balGet (instantiate "t" "T" 0 1000 "C").balances "C" /
        get_unit (instantiate "t" "T" 0 1000 "C") :=
  ⟨ReachableFrom.refl, rfl, by decide⟩

/-- C1 amended: the equality `len(owned(x)) = floor(balance_of(x) / unit)` is
not an invariant of all reachable states (the creator violates it right after
instantiation), but every `Transfer` call preserves it for both parties:
if both the sender and the recipient are non-exempt and satisfy the equality
before the call, they satisfy it after the call (failed calls leave the state
unchanged). -/
theorem C1_amended_transfer_preserves_sync (envAddr : String) (s : State)
    (D R : String) (amount : Nat)
    (hD : s.whitelist D = false) (hR : s.whitelist R = false)
    (hlD : (s.owned D).length = balGet s.balances D / get_unit s)
    (hlR : (s.owned R).length = balGet s.balances R / get_unit s) :
    ((execStep envAddr s D (.transferM R amount)).owned D).length =
      balGet (execStep envAddr s D (.transferM R amount)).balances D /
        get_unit (execStep envAddr s D (.transferM R amount)) ∧
    ((execStep envAddr s D (.transferM R amount)).owned R).length =
      balGet (execStep envAddr s D (.transferM R amount)).balances R /
        get_unit (execStep envAddr s D (.transferM R amount)) := by
  unfold execStep
  cases hx : execute envAddr s D (.transferM R amount) with
  | error e => exact ⟨hlD, hlR⟩
  | ok s' =>
    obtain ⟨h1, h2, hdec⟩ := _transfer_sync s D R amount s' hD hR hlD hlR hx
    have hu : get_unit s' = get_unit s := by
      show (10 : Nat) ^ s'.decimals = 10 ^ s.decimals
      rw [hdec]
    exact ⟨by rw [hu]; exact h1, by rw [hu]; exact h2⟩

/-- Concrete application of the amended C1 statement: transferring 1 unit
from "D" to "E" on `sSync` keeps "D" in sync. -/
theorem C1_amended_witness :
    ((execStep "cw404" sSync "D" (.transferM "E" 1)).owned "D").length =
      balGet (execStep "cw404" sSync "D" (.transferM "E" 1)).balances "D" /
        get_unit (execStep "cw404" sSync "D" (.transferM "E" 1)) :=
  (C1_amended_transfer_preserves_sync "cw404" sSync "D" "E" 1 rfl rfl
    (by decide) (by decide)).1

/-- C2: whenever the burn forced by a fractional transfer selects a token
whose lock flag is set, the whole call fails with `PreventBurn` (the spec's
`LockedToken`) and the host-level step leaves the state unchanged: balance,
owned sequence, owned-index, ownership and approval entries are untouched. -/
theorem C2_locked_burn_aborts (envAddr : String) (s : State) (D R : String)
    (amount tid : Nat) (hD : D ≠ "") (hR : R ≠ "") (hDR : D ≠ R)
    (hwD : s.whitelist D = false)
    (hown : s.owned D = [tid]) (hlock : s.locked tid = true)
    (hbal : amount ≤ balGet s.balances D)
    (hburn : 1 ≤ balGet s.balances D / get_unit s -
      (balGet s.balances D - amount) / get_unit s) :
    execute envAddr s D (.transferM R amount) = .error (.err .preventBurn) ∧
    execStep envAddr s D (.transferM R amount) = s := by
  have hL : (s.owned D).getLast? = some tid := by rw [hown]; rfl
  have hexec : execute envAddr s D (.transferM R amount) =
      .error (.err .preventBurn) :=
    _transfer_locked s D R amount tid hD hR hDR hwD hbal hL hlock hburn
  refine ⟨hexec, ?_⟩
  unfold execStep
  rw [hexec]

theorem C2_witness :
    execute "cw404" sLocked "D" (.transferM "C" 1) = .error (.err .preventBurn) ∧
    execStep "cw404" sLocked "D" (.transferM "C" 1) = sLocked :=
  C2_locked_burn_aborts "cw404" sLocked "D" "C" 1 1 (by decide) (by decide)
    (by decide) rfl rfl rfl (by decide) (by decide)

/-- C9 counterexample: Scenario A as stated does not hold on the code.  After
instantiation (supply 1000, decimals 0, creator "C", not exempt), the
transfer of 1 unit from "C" must burn one whole token, but "C" owns no
tokens: `_burn` indexes an empty sequence (`owned[owned.len() - 1]`), a
panic; the host aborts and the state is unchanged, so none of the claimed
post-state facts (`balance_of(C)=999`, `minted=1`, ...) hold. -/
theorem C9_counterexample :
    execute "cw404" (instantiate "t" "T" 0 1000 "C") "C" (.transferM "D" 1) =
      .error .trap ∧
    (execStep "cw404" (instantiate "t" "T" 0 1000 "C") "C" (.transferM "D" 1)).minted
      = 0 ∧
    balGet (execStep "cw404" (instantiate "t" "T" 0 1000 "C") "C"
      (.transferM "D" 1)).balances "C" = 1000 :=
  ⟨rfl, rfl, rfl⟩

/-- C9 amended: after instantiation `balance_of(C) = 1000` and `minted = 0`;
Scenario A's transfer succeeds once the creator has been whitelisted first
(`set_whitelist("C", true)`, which burns nothing since "C" owns no tokens):
then transferring 1 unit from "C" to "D" gives `balance_of(C)=999`,
`balance_of(D)=1`, exactly token 1 minted and owned by "D", `minted = 1`. -/
theorem C9_amended_scenario :
    balGet (instantiate "t" "T" 0 1000 "C").balances "C" = 1000 ∧
    (instantiate "t" "T" 0 1000 "C").minted = 0 ∧
    balGet (execStep "cw404" (execStep "cw404" (instantiate "t" "T" 0 1000 "C") "C"
      (.setWhitelist "C" true)) "C" (.transferM "D" 1)).balances "C" = 999 ∧
    balGet (execStep "cw404" (execStep "cw404" (instantiate "t" "T" 0 1000 "C") "C"
      (.setWhitelist "C" true)) "C" (.transferM "D" 1)).balances "D" = 1 ∧
    (execStep "cw404" (execStep "cw404" (instantiate "t" "T" 0 1000 "C") "C"
      (.setWhitelist "C" true)) "C" (.transferM "D" 1)).owned "D" = [1] ∧
    (execStep "cw404" (execStep "cw404" (instantiate "t" "T" 0 1000 "C") "C"
      (.setWhitelist "C" true)) "C" (.transferM "D" 1)).ownerOf 1 = some "D" ∧
    (execStep "cw404" (execStep "cw404" (instantiate "t" "T" 0 1000 "C") "C"
      (.setWhitelist "C" true)) "C" (.transferM "D" 1)).minted = 1 :=
  ⟨rfl, rfl, rfl, rfl, rfl, rfl, rfl⟩

/-- C8: the typed-error discipline is violated.  A fractional `Send` whose
amount exceeds the sender's balance panics (`.unwrap()` on the failed
`_transfer`), as does a fractional `TransferFrom` once the allowance check
passes, while a plain `Transfer` with the same shortfall returns the typed
`checked_sub` error. -/
theorem C8_insufficient_balance_panics :
    execute "cw404" (instantiate "t" "T" 0 100 "C") "C" (.sendM "B" 200) =
      .error .trap ∧
    execute "cw404" (execStep "cw404" (instantiate "t" "T" 0 100 "C") "C"
      (.increaseAllowance "X" 200)) "X" (.transferFromM "C" "B" 200) =
      .error .trap ∧
    execute "cw404" (instantiate "t" "T" 0 100 "C") "C" (.transferM "B" 200) =
      .error (.err (.std .overflowSub)) :=
  ⟨rfl, rfl, rfl⟩

/-- C4: a `transfer_from` call with `amount_or_id <= minted` is interpreted
as a token-id transfer: it requires `owner_of(id) = from` (else
`InvalidSender`), a non-empty recipient (the empty string is rejected by
address validation before the dead `to == ""` check), authorization of the
caller as the owner, an approve-all operator, or the token's approved
spender (else `Unauthorized`), and a non-exempt recipient (else
`InvalidRecipient`); on success the token's ownership moves to the
recipient, its single-token approval is cleared, and exactly one unit of
balance moves from sender to recipient. -/
theorem C4_token_branch (s : State) (sender frm dst : String) (k : Nat)
    (hfrm : frm ≠ "") (hk : k ≤ s.minted) :
    (dst = "" → transfer_from s sender frm dst k = .error (.err (.std .addrInvalid))) ∧
    (dst ≠ "" → frm ≠ (s.ownerOf k).getD "" →
      transfer_from s sender frm dst k = .error (.err .invalidSender)) ∧
    (dst ≠ "" → frm = (s.ownerOf k).getD "" →
      ¬(sender = frm ∨ s.approvedForAll (frm, sender) = true ∨
        sender = (s.getApproved k).getD "") →
      transfer_from s sender frm dst k = .error (.err .unauthorized)) ∧
    (dst ≠ "" → s.whitelist dst = true → frm = (s.ownerOf k).getD "" →
      (sender = frm ∨ s.approvedForAll (frm, sender) = true ∨
        sender = (s.getApproved k).getD "") →
      transfer_from s sender frm dst k = .error (.err .invalidRecipient)) ∧
    (∀ s', transfer_from s sender frm dst k = .ok s' →
      s'.ownerOf k = some dst ∧ s'.getApproved k = none ∧ k ∈ s'.owned dst ∧
      (frm ≠ dst → balGet s'.balances frm = balGet s.balances frm - get_unit s ∧
        balGet s'.balances dst = balGet s.balances dst + get_unit s)) := by
  refine ⟨?_, ?_, ?_, ?_, ?_⟩
  · intro hd
    unfold transfer_from
    simp [addrValidate, hfrm, hd]
  · intro hd hne
    unfold transfer_from
    simp only [addrValidate, if_neg hfrm, if_neg hd]
    rw [if_pos hk, if_pos hne]
  · intro hd heq hnauth
    unfold transfer_from
    simp only [addrValidate, if_neg hfrm, if_neg hd]
    rw [if_pos hk, if_neg (show ¬ frm ≠ (s.ownerOf k).getD "" by simpa using heq)]
    rw [if_pos (show sender ≠ frm ∧ ¬ s.approvedForAll (frm, sender) = true ∧
      sender ≠ (s.getApproved k).getD "" by tauto)]
  · intro hd hwl heq hauth
    unfold transfer_from
    simp only [addrValidate, if_neg hfrm, if_neg hd]
    rw [if_pos hk, if_neg (show ¬ frm ≠ (s.ownerOf k).getD "" by simpa using heq)]
    rw [if_neg (show ¬ (sender ≠ frm ∧ ¬ s.approvedForAll (frm, sender) = true ∧
      sender ≠ (s.getApproved k).getD "") by tauto)]
    rw [if_pos hwl]
  · intro s' h
    obtain ⟨-, -, -, -, -, hle, updated_id, -, -, rfl⟩ :=
      transfer_from_tok_elim s sender frm dst k s' hk h
    refine ⟨?_, ?_, ?_, fun hfd => ⟨?_, ?_⟩⟩
    · show setN s.ownerOf k (some dst) k = some dst
      simp [setN]
    · show setN s.getApproved k none k = none
      simp [setN]
    · show k ∈ setS _ dst _ dst
      simp [setS]
    · exact stage2_balGet_frm_ne s frm dst (get_unit s) hfd
    · exact stage2_balGet_dst_ne s frm dst (get_unit s) hfd

/-- Concrete application of C4: "C" is not the owner of token 1 in `sSync`,
so the token-branch transfer fails `InvalidSender`. -/
theorem C4_witness :
    transfer_from sSync "D" "C" "E" 1 = .error (.err .invalidSender) :=
  (C4_token_branch sSync "D" "C" "E" 1 (by decide) (by decide)).2.1
    (by decide) (by decide)

/-- C5: a `transfer_from` call with `amount_or_id > minted` is a fractional
transfer: with the `Uint128::MAX` sentinel allowance the stored allowance is
left untouched and the call delegates directly; otherwise exactly
`amount_or_id` is subtracted from the allowance before delegating, and the
call fails with the typed `checked_sub` underflow error (the spec's
`InsufficientAllowance`) when `amount_or_id` exceeds the allowance. -/
theorem C5_fractional_allowance (s : State) (sender frm dst : String) (amt : Nat)
    (hgt : s.minted < amt) (hfrm : frm ≠ "") (hdst : dst ≠ "") :
    (s.allowance (frm, sender) = 2 ^ 128 - 1 →
      transfer_from s sender frm dst amt = unwrapR (_transfer s frm dst amt)) ∧
    (s.allowance (frm, sender) ≠ 2 ^ 128 - 1 → amt ≤ s.allowance (frm, sender) →
      transfer_from s sender frm dst amt =
        unwrapR (_transfer (allowStage s frm sender amt) frm dst amt)) ∧
    (s.allowance (frm, sender) ≠ 2 ^ 128 - 1 → s.allowance (frm, sender) < amt →
      transfer_from s sender frm dst amt = .error (.err (.std .overflowSub))) := by
  refine ⟨?_, ?_, ?_⟩
  · intro h1
    unfold transfer_from
    simp only [addrValidate, if_neg hfrm, if_neg hdst]
    rw [if_neg (show ¬ amt ≤ s.minted by omega)]
    rw [if_neg (show ¬ s.allowance (frm, sender) ≠ 2 ^ 128 - 1 by simpa using h1)]
  · intro h1 h2
    unfold transfer_from
    simp only [addrValidate, if_neg hfrm, if_neg hdst]
    rw [if_neg (show ¬ amt ≤ s.minted by omega)]
    rw [if_pos h1, if_neg (show ¬ amt > s.allowance (frm, sender) by omega)]
  · intro h1 h2
    unfold transfer_from
    simp only [addrValidate, if_neg hfrm, if_neg hdst]
    rw [if_neg (show ¬ amt ≤ s.minted by omega)]
    rw [if_pos h1, if_pos (show amt > s.allowance (frm, sender) by omega)]

theorem C5_witness :
    transfer_from (instantiate "t" "T" 0 100 "C") "X" "C" "B" 7 =
      .error (.err (.std .overflowSub)) :=
  (C5_fractional_allowance (instantiate "t" "T" 0 100 "C") "X" "C" "B" 7
    (by decide) (by decide) (by decide)).2.2 (by decide) (by decide)

/-- C10: `IncreaseAllowance` is routed to `approve`: when the amount is
nonzero and does not exceed the minted counter it records a single-token
approval of the spender for token id = amount (owner or approve-all operator
required, fractional allowances untouched); otherwise it overwrites the
fractional allowance `(caller, spender)` to exactly the amount — it does not
add to the previously stored allowance. -/
theorem C10_increase_allowance_dispatch (envAddr : String) (s : State)
    (sender spender : String) (amt : Nat) :
    (0 < amt → amt ≤ s.minted →
      ((sender ≠ (s.ownerOf amt).getD "" ∧
          s.approvedForAll ((s.ownerOf amt).getD "", sender) = false) →
        execute envAddr s sender (.increaseAllowance spender amt) =
          .error (.err .unauthorized)) ∧
      (∀ s', execute envAddr s sender (.increaseAllowance spender amt) = .ok s' →
        s'.getApproved amt = some spender ∧ s'.allowance = s.allowance)) ∧
    ((amt = 0 ∨ s.minted < amt) →
      execute envAddr s sender (.increaseAllowance spender amt) =
        .ok (execStep envAddr s sender (.increaseAllowance spender amt)) ∧
      (execStep envAddr s sender (.increaseAllowance spender amt)).allowance
        (sender, spender) = amt ∧
      (∀ q, q ≠ (sender, spender) →
        (execStep envAddr s sender (.increaseAllowance spender amt)).allowance q =
          s.allowance q) ∧
      (execStep envAddr s sender (.increaseAllowance spender amt)).getApproved =
        s.getApproved) := by
  constructor
  · intro h1 h2
    constructor
    · intro ⟨ha, hb⟩
      show approve s sender spender amt = _
      unfold approve
      rw [if_pos ⟨h2, h1⟩]
      rw [if_pos (show sender ≠ (s.ownerOf amt).getD "" ∧
        ¬ s.approvedForAll ((s.ownerOf amt).getD "", sender) = true by
          exact ⟨ha, by simp [hb]⟩)]
    · intro s' h
      have h' : approve s sender spender amt = .ok s' := h
      unfold approve at h'
      rw [if_pos ⟨h2, h1⟩] at h'
      simp only [ne_eq] at h'
      split at h'
      · cases h'
      · obtain rfl := Except.ok.inj h'
        exact ⟨by simp [setN], rfl⟩
  · intro hcase
    have hno : ¬ (amt ≤ s.minted ∧ 0 < amt) := by omega
    have hexec : execute envAddr s sender (.increaseAllowance spender amt) =
        .ok { s with allowance := setP s.allowance (sender, spender) amt } := by
      show approve s sender spender amt = _
      unfold approve
      rw [if_neg hno]
    have hstep : execStep envAddr s sender (.increaseAllowance spender amt) =
        { s with allowance := setP s.allowance (sender, spender) amt } := by
      unfold execStep
      rw [hexec]
    rw [hstep, hexec]
    refine ⟨rfl, by simp [setP], fun q hq => by simp [setP, hq], rfl⟩

theorem C10_witness :
    execute "cw404" sLocked "D" (.increaseAllowance "X" 7) =
      .ok (execStep "cw404" sLocked "D" (.increaseAllowance "X" 7)) ∧
    (execStep "cw404" sLocked "D" (.increaseAllowance "X" 7)).allowance ("D", "X") = 7 :=
  ⟨((C10_increase_allowance_dispatch "cw404" sLocked "D" "X" 7).2
      (Or.inr (by decide))).1,
    ((C10_increase_allowance_dispatch "cw404" sLocked "D" "X" 7).2
      (Or.inr (by decide))).2.1⟩

theorem burnN_full_ok (frm : String) (s : State) (hf : frm ≠ "")
    (hlock : ∀ id ∈ s.owned frm, s.locked id = false) :
    ∃ s', burnN frm (s.owned frm).length s = .ok s' := by
  suffices H : ∀ n s, frm ≠ "" → (∀ id ∈ s.owned frm, s.locked id = false) →
      n = (s.owned frm).length → ∃ s', burnN frm n s = .ok s' from
    H _ s hf hlock rfl
  intro n
  induction n with
  | zero => exact fun s _ _ _ => ⟨s, rfl⟩
  | succ n ih =>
    intro s hf hlock hn
    have hne : s.owned frm ≠ [] := by
      intro h0
      rw [h0] at hn
      simp at hn
    obtain ⟨id0, hL⟩ : ∃ id0, (s.owned frm).getLast? = some id0 := by
      cases hq : (s.owned frm).getLast? with
      | none => exact absurd (List.getLast?_eq_none_iff.mp hq) hne
      | some a => exact ⟨a, rfl⟩
    have hid0mem : id0 ∈ s.owned frm := List.mem_of_mem_getLast? hL
    have hb : _burn s frm = .ok (burnResult s frm id0) :=
      (_burn_ok_iff s frm _).2 ⟨hf, id0, hL, hlock id0 hid0mem, rfl⟩
    have hlock1 : ∀ id ∈ (burnResult s frm id0).owned frm,
        (burnResult s frm id0).locked id = false := by
      intro id hid
      have hid' : id ∈ (s.owned frm).dropLast := by
        simpa [burnResult, setS] using hid
      exact hlock id ((List.dropLast_sublist (s.owned frm)).subset hid')
    have hlen1 : n = ((burnResult s frm id0).owned frm).length := by
      have : (burnResult s frm id0).owned frm = (s.owned frm).dropLast := by
        simp [burnResult, setS]
      rw [this, List.length_dropLast]
      omega
    obtain ⟨s', hs'⟩ := ih (burnResult s frm id0) hf hlock1 hlen1
    refine ⟨s', ?_⟩
    rw [burnN, hb]
    exact hs' 

/-- C7 amended: `set_whitelist` fails `Unauthorized` for every caller other
than the contract owner; and when the owner enables exemption for a target
owning `n` whole tokens, *provided none of the target's owned tokens is
locked*, the call burns exactly those `n` tokens (clearing their ownership,
draining the owned sequence), leaves every balance unchanged, sets the flag
and leaves the owned set empty.  (A locked owned token makes the call fail
with `PreventBurn` instead — see the counterexample.) -/
theorem C7_amended_set_whitelist (envAddr : String) (s : State)
    (sender target : String) :
    (∀ st : Bool, sender ≠ s.owner →
      execute envAddr s sender (.setWhitelist target st) =
        .error (.err .unauthorized)) ∧
    (sender = s.owner → target ≠ "" →
      (∀ id ∈ s.owned target, s.locked id = false) →
      execute envAddr s sender (.setWhitelist target true) =
        .ok (execStep envAddr s sender (.setWhitelist target true)) ∧
      (execStep envAddr s sender (.setWhitelist target true)).whitelist target = true ∧
      (execStep envAddr s sender (.setWhitelist target true)).owned target = [] ∧
      (execStep envAddr s sender (.setWhitelist target true)).balances = s.balances ∧
      (execStep envAddr s sender (.setWhitelist target true)).minted = s.minted ∧
      (∀ id ∈ s.owned target,
        (execStep envAddr s sender (.setWhitelist target true)).ownerOf id = none) ∧
      (∀ id, id ∉ s.owned target →
        (execStep envAddr s sender (.setWhitelist target true)).ownerOf id =
          s.ownerOf id) ∧
      (∀ x, x ≠ target →
        (execStep envAddr s sender (.setWhitelist target true)).owned x =
          s.owned x)) := by
  constructor
  · intro st hne
    show set_whitelist s sender target st = _
    unfold set_whitelist
    rw [if_pos hne]
  · intro hown htar hlock
    obtain ⟨s1, hburn⟩ := burnN_full_ok target s htar hlock
    have hexec : execute envAddr s sender (.setWhitelist target true) =
        .ok { s1 with whitelist := setS s1.whitelist target true } := by
      show set_whitelist s sender target true = _
      unfold set_whitelist
      rw [if_neg (by simp [hown]), if_pos rfl, hburn]
    have hstep : execStep envAddr s sender (.setWhitelist target true) =
        { s1 with whitelist := setS s1.whitelist target true } := by
      unfold execStep
      rw [hexec]
    obtain ⟨hbal, hmin, -, -, -, -, -, -, -, hownedx⟩ := burnN_fields target _ _ s1 hburn
    obtain ⟨-, howned⟩ := burnN_owned target _ _ s1 hburn
    obtain ⟨hofin, hofout⟩ := burnN_ownerOf target _ _ s1 hburn
    simp only [Nat.sub_self, List.take_zero] at howned
    simp only [Nat.sub_self, List.drop_zero] at hofin hofout
    refine ⟨by rw [hexec, hstep], ?_, ?_, ?_, ?_, ?_, ?_, ?_⟩
    · rw [hstep]
      simp [setS]
    · rw [hstep]
      exact howned
    · rw [hstep]
      exact hbal
    · rw [hstep]
      exact hmin
    · intro id hid
      rw [hstep]
      exact hofin id hid
    · intro id hid
      rw [hstep]
      exact hofout id hid
    · intro x hx
      rw [hstep]
      exact hownedx x hx

/-- C7 counterexample: with the owner "C" enabling exemption for "D", which
owns exactly the locked token 1, the call fails with `PreventBurn` and
changes nothing: no token is burned and the flag stays false, contradicting
the claim's unconditional description of the enable path. -/
theorem C7_counterexample :
    (sLocked.owned "D").length = 1 ∧ sLocked.owner = "C" ∧
    execute "cw404" sLocked "C" (.setWhitelist "D" true) =
      .error (.err .preventBurn) ∧
    execStep "cw404" sLocked "C" (.setWhitelist "D" true) = sLocked :=
  ⟨rfl, rfl, rfl, rfl⟩

/-- Concrete application of the amended C7: draining "D"'s two (unlocked)
tokens in `sSync` works as described. -/
theorem C7_witness :
    execute "cw404" sSync "C" (.setWhitelist "D" true) =
      .ok (execStep "cw404" sSync "C" (.setWhitelist "D" true)) ∧
    (execStep "cw404" sSync "C" (.setWhitelist "D" true)).whitelist "D" = true ∧
    (execStep "cw404" sSync "C" (.setWhitelist "D" true)).owned "D" = [] ∧
    (execStep "cw404" sSync "C" (.setWhitelist "D" true)).balances = sSync.balances := by
  obtain ⟨h1, h2, h3, h4, -⟩ :=
    (C7_amended_set_whitelist "cw404" sSync "C" "D").2 rfl (by decide) (by decide)
  exact ⟨h1, h2, h3, h4⟩

/-! ### The owned-index invariant (C6) -/

theorem setS_self {α : Type} (f : String → α) (k : String) (v : α) : setS f k v k = v := by
  simp [setS]

theorem setS_ne {α : Type} (f : String → α) (k : String) (v : α) (x : String)
    (h : x ≠ k) : setS f k v x = f x := by
  simp [setS, h]

theorem setN_self {α : Type} (f : Nat → α) (k : Nat) (v : α) : setN f k v k = v := by
  simp [setN]

theorem setN_ne {α : Type} (f : Nat → α) (k : Nat) (v : α) (x : Nat)
    (h : x ≠ k) : setN f k v x = f x := by
  simp [setN, h]

theorem mem_of_getElem? {l : List Nat} {i e : Nat} (h : l[i]? = some e) : e ∈ l := by
  rw [List.getElem?_eq_some] at h
  obtain ⟨hlt, rfl⟩ := h
  exact List.getElem_mem hlt

theorem getElem?_dropLast (l : List Nat) (i : Nat) :
    (l.dropLast)[i]? = if i < l.length - 1 then l[i]? else none := by
  rw [List.dropLast_eq_take, List.getElem?_take]

theorem invIdx_nodup {ow : String → List Nat} {oi : Nat → Option Nat}
    (h : InvIdx ow oi) (a : String) : (ow a).Nodup := by
  rw [List.nodup_iff_injective_get]
  intro m n hmn
  have h1 := h a m.1 ((ow a).get m)
    (by rw [List.get_eq_getElem, List.getElem?_eq_getElem m.2])
  have h2 := h a n.1 ((ow a).get n)
    (by rw [List.get_eq_getElem, List.getElem?_eq_getElem n.2])
  rw [hmn] at h1
  rw [h2] at h1
  exact Fin.ext (Option.some_inj.mp h1.symm)

theorem inv_mint (s : State) (dst : String) (s' : State) (hinv : InvS s)
    (h : _mint s dst = .ok s') : InvS s' := by
  obtain ⟨hidx, hown, hmem, hne⟩ := hinv
  obtain ⟨hd, ho, rfl⟩ := (_mint_ok_iff s dst s').1 h
  have hoo : s.ownerOf (s.minted + 1) = none := by
    cases hq : s.ownerOf (s.minted + 1) with
    | none => rfl
    | some o =>
      rw [hq] at ho
      simp at ho
      rw [ho] at hq
      exact absurd hq (hne _)
  have hnotmem : ∀ a, s.minted + 1 ∉ s.owned a := by
    intro a hmem'
    rw [hown a _ hmem'] at hoo
    cases hoo
  have howE : (mintResult s dst).owned =
    setS s.owned dst (s.owned dst ++ [s.minted + 1]) := rfl
  have hoiE : (mintResult s dst).ownedIndex =
    setN s.ownedIndex (s.minted + 1) (some (s.owned dst).length) := rfl
  have hooE : (mintResult s dst).ownerOf =
    setN s.ownerOf (s.minted + 1) (some dst) := rfl
  refine ⟨?_, ?_, ?_, ?_⟩
  · intro a i e he
    rw [howE] at he
    rw [hoiE]
    by_cases ha : a = dst
    · subst ha
      rw [setS_self] at he
      by_cases hi : i < (s.owned a).length
      · rw [List.getElem?_append_left hi] at he
        have hmem' : e ∈ s.owned a := mem_of_getElem? he
        have hneq : e ≠ s.minted + 1 := fun hc => hnotmem a (hc ▸ hmem')
        rw [setN_ne _ _ _ _ hneq]
        exact hidx a i e he
      · rw [List.getElem?_append_right (by omega)] at he
        have : i - (s.owned a).length = 0 ∧ e = s.minted + 1 := by
          rcases hq : i - (s.owned a).length with - | j
          · rw [hq] at he
            simp at he
            exact ⟨rfl, he.symm⟩
          · rw [hq] at he
            simp at he
        obtain ⟨hz, rfl⟩ := this
        rw [setN_self]
        congr 1
        omega
    · rw [setS_ne _ _ _ _ ha] at he
      have hmem' : e ∈ s.owned a := mem_of_getElem? he
      have hneq : e ≠ s.minted + 1 := fun hc => hnotmem a (hc ▸ hmem')
      rw [setN_ne _ _ _ _ hneq]
      exact hidx a i e he
  · intro a e he
    rw [howE] at he
    rw [hooE]
    by_cases ha : a = dst
    · subst ha
      rw [setS_self, List.mem_append] at he
      rcases he with he | he
      · have hneq : e ≠ s.minted + 1 := fun hc => hnotmem a (hc ▸ he)
        rw [setN_ne _ _ _ _ hneq]
        exact hown a e he
      · rw [List.mem_singleton] at he
        rw [he, setN_self]
    · rw [setS_ne _ _ _ _ ha] at he
      have hneq : e ≠ s.minted + 1 := fun hc => hnotmem a (hc ▸ he)
      rw [setN_ne _ _ _ _ hneq]
      exact hown a e he
  · intro a e he
    rw [hooE] at he
    rw [howE]
    by_cases hei : e = s.minted + 1
    · subst hei
      rw [setN_self] at he
      obtain rfl := Option.some_inj.mp he
      rw [setS_self]
      simp
    · rw [setN_ne _ _ _ _ hei] at he
      have hm := hmem a e he
      by_cases ha : a = dst
      · subst ha
        rw [setS_self]
        exact List.mem_append_left _ hm
      · rw [setS_ne _ _ _ _ ha]
        exact hm
  · intro e
    rw [hooE]
    by_cases hei : e = s.minted + 1
    · subst hei
      rw [setN_self]
      intro hc
      exact hd (Option.some_inj.mp hc)
    · rw [setN_ne _ _ _ _ hei]
      exact hne e

theorem inv_burn (s : State) (frm : String) (s' : State) (hinv : InvS s)
    (h : _burn s frm = .ok s') : InvS s' := by
  obtain ⟨hidx, hown, hmem, hne⟩ := hinv
  obtain ⟨hf, id0, hL, hlk, rfl⟩ := (_burn_ok_iff s frm s').1 h
  have hne0 : s.owned frm ≠ [] := fun h0 => by rw [h0] at hL; cases hL
  have hlen : 0 < (s.owned frm).length := List.length_pos.2 hne0
  have hid0last : (s.owned frm).getLast hne0 = id0 := by
    have h1 := List.getLast?_eq_getLast (s.owned frm) hne0
    rw [hL] at h1
    exact (Option.some_inj.mp h1).symm
  have hid0get : (s.owned frm)[(s.owned frm).length - 1]? = some id0 := by
    rw [List.getElem?_eq_getElem (by omega)]
    rw [← hid0last]
    exact congrArg some (List.getLast_eq_getElem (l := s.owned frm) hne0).symm
  have hid0mem : id0 ∈ s.owned frm := List.mem_of_mem_getLast? hL
  have hooid0 : s.ownerOf id0 = some frm := hown frm id0 hid0mem
  have hothers : ∀ a, a ≠ frm → id0 ∉ s.owned a := by
    intro a ha hmem'
    have := hown a id0 hmem'
    rw [hooid0] at this
    exact ha (Option.some_inj.mp this).symm
  have hid0idx : s.ownedIndex id0 = some ((s.owned frm).length - 1) :=
    hidx frm _ id0 hid0get
  have hnotdrop : id0 ∉ (s.owned frm).dropLast := by
    intro hmem'
    obtain ⟨t, ht⟩ := List.mem_iff_getElem?.1 hmem'
    rw [getElem?_dropLast] at ht
    split at ht
    · have := hidx frm t id0 ht
      rw [hid0idx] at this
      have := Option.some_inj.mp this
      omega
    · cases ht
  have hsplit : (s.owned frm).dropLast ++ [id0] = s.owned frm := by
    rw [← hid0last]
    exact List.dropLast_append_getLast hne0
  have howE : (burnResult s frm id0).owned =
    setS s.owned frm (s.owned frm).dropLast := rfl
  have hoiE : (burnResult s frm id0).ownedIndex = setN s.ownedIndex id0 none := rfl
  have hooE : (burnResult s frm id0).ownerOf = setN s.ownerOf id0 none := rfl
  refine ⟨?_, ?_, ?_, ?_⟩
  · intro a i e he
    rw [howE] at he
    rw [hoiE]
    by_cases ha : a = frm
    · subst ha
      rw [setS_self, getElem?_dropLast] at he
      split at he
      · have hneq : e ≠ id0 := by
          intro hc
          subst hc
          have := hidx a i e he
          rw [hid0idx] at this
          have := Option.some_inj.mp this
          omega
        rw [setN_ne _ _ _ _ hneq]
        exact hidx a i e he
      · cases he
    · rw [setS_ne _ _ _ _ ha] at he
      have hmem' : e ∈ s.owned a := mem_of_getElem? he
      have hneq : e ≠ id0 := fun hc => hothers a ha (hc ▸ hmem')
      rw [setN_ne _ _ _ _ hneq]
      exact hidx a i e he
  · intro a e he
    rw [howE] at he
    rw [hooE]
    by_cases ha : a = frm
    · subst ha
      rw [setS_self] at he
      have hneq : e ≠ id0 := fun hc => hnotdrop (hc ▸ he)
      rw [setN_ne _ _ _ _ hneq]
      exact hown a e ((List.dropLast_sublist (s.owned a)).subset he)
    · rw [setS_ne _ _ _ _ ha] at he
      have hneq : e ≠ id0 := fun hc => hothers a ha (hc ▸ he)
      rw [setN_ne _ _ _ _ hneq]
      exact hown a e he
  · intro a e he
    rw [hooE] at he
    rw [howE]
    by_cases hei : e = id0
    · subst hei
      rw [setN_self] at he
      cases he
    · rw [setN_ne _ _ _ _ hei] at he
      have hm := hmem a e he
      by_cases ha : a = frm
      · subst ha
        rw [setS_self]
        rw [← hsplit, List.mem_append] at hm
        rcases hm with hm | hm
        · exact hm
        · rw [List.mem_singleton] at hm
          exact absurd hm hei
      · rw [setS_ne _ _ _ _ ha]
        exact hm
  · intro e
    rw [hooE]
    by_cases hei : e = id0
    · subst hei
      rw [setN_self]
      exact fun hc => by cases hc
    · rw [setN_ne _ _ _ _ hei]
      exact hne e

theorem inv_tok (s : State) (sender frm dst : String) (k : Nat) (s' : State)
    (hinv : InvS s) (hk : k ≤ s.minted)
    (h : transfer_from s sender frm dst k = .ok s') : InvS s' := by
  obtain ⟨hidx, hown, hmem, hne⟩ := hinv
  obtain ⟨hf, hd, how, -, -, -, updated_id, hL, hplt, rfl⟩ :=
    transfer_from_tok_elim s sender frm dst k s' hk h
  have hook : s.ownerOf k = some frm := by
    cases hq : s.ownerOf k with
    | none =>
      rw [hq] at how
      simp at how
      exact absurd how hf
    | some o =>
      rw [hq] at how
      simp at how
      rw [how]
  have hkmem : k ∈ s.owned frm := hmem frm k hook
  obtain ⟨q, hq⟩ := List.mem_iff_getElem?.1 hkmem
  have hkidx : s.ownedIndex k = some q := hidx frm q k hq
  have hgetD : (s.ownedIndex k).getD 0 = q := by rw [hkidx]; rfl
  rw [hgetD] at hplt
  have hne0 : s.owned frm ≠ [] := by
    intro h0
    rw [h0] at hkmem
    cases hkmem
  have huplast : (s.owned frm).getLast hne0 = updated_id := by
    have h1 := List.getLast?_eq_getLast (s.owned frm) hne0
    rw [hL] at h1
    exact (Option.some_inj.mp h1).symm
  have hlastget : (s.owned frm)[(s.owned frm).length - 1]? = some updated_id := by
    rw [List.getElem?_eq_getElem (by
      have := List.length_pos.2 hne0
      omega)]
    rw [← huplast]
    exact congrArg some (List.getLast_eq_getElem (l := s.owned frm) hne0).symm
  have hupidx : s.ownedIndex updated_id = some ((s.owned frm).length - 1) :=
    hidx frm _ updated_id hlastget
  have hupmem : updated_id ∈ s.owned frm := List.mem_of_mem_getLast? hL
  have hooup : s.ownerOf updated_id = some frm := hown frm updated_id hupmem
  have huniq : ∀ (i j e : Nat), (s.owned frm)[i]? = some e →
      (s.owned frm)[j]? = some e → i = j := by
    intro i j e h1 h2
    have ha := hidx frm i e h1
    have hb := hidx frm j e h2
    rw [ha] at hb
    exact Option.some_inj.mp hb
  have hkup : k = updated_id → q = (s.owned frm).length - 1 := by
    intro hc
    exact huniq q ((s.owned frm).length - 1) k hq (by rw [hc]; exact hlastget)
  have hupk : q = (s.owned frm).length - 1 → k = updated_id := by
    intro hc
    rw [hc] at hq
    rw [hlastget] at hq
    exact (Option.some_inj.mp hq).symm
  have hkowned : ∀ a, a ≠ frm → k ∉ s.owned a := by
    intro a ha hmem'
    have := hown a k hmem'
    rw [hook] at this
    exact ha (Option.some_inj.mp this).symm
  have hupowned : ∀ a, a ≠ frm → updated_id ∉ s.owned a := by
    intro a ha hmem'
    have := hown a updated_id hmem'
    rw [hooup] at this
    exact ha (Option.some_inj.mp this).symm
  have hvec' : ∀ i : Nat, (((s.owned frm).set q updated_id).dropLast)[i]? =
      if i < (s.owned frm).length - 1 then
        (if q = i then some updated_id else (s.owned frm)[i]?) else none := by
    intro i
    rw [getElem?_dropLast, List.length_set, List.getElem?_set, if_pos hplt]
  have hknotin : k ∉ ((s.owned frm).set q updated_id).dropLast := by
    intro hmem'
    obtain ⟨i, hi⟩ := List.mem_iff_getElem?.1 hmem'
    rw [hvec' i] at hi
    split at hi
    · split at hi
      · have hku := (Option.some_inj.mp hi).symm
        have := hkup hku
        omega
      · have := huniq i q k hi hq
        omega
    · cases hi
  have hsub : ∀ e, e ∈ ((s.owned frm).set q updated_id).dropLast → e ∈ s.owned frm := by
    intro e hmem'
    obtain ⟨i, hi⟩ := List.mem_iff_getElem?.1 hmem'
    rw [hvec' i] at hi
    split at hi
    · split at hi
      · exact (Option.some_inj.mp hi) ▸ hupmem
      · exact mem_of_getElem? hi
    · cases hi
  have hin : ∀ e, e ∈ s.owned frm → e ≠ k →
      e ∈ ((s.owned frm).set q updated_id).dropLast := by
    intro e hmem' hek
    obtain ⟨i, hi⟩ := List.mem_iff_getElem?.1 hmem'
    have hiq : i ≠ q := by
      intro hc
      rw [hc, hq] at hi
      exact hek (Option.some_inj.mp hi).symm
    have hilt : i < (s.owned frm).length := (List.getElem?_eq_some.1 hi).1
    by_cases hilast : i < (s.owned frm).length - 1
    · refine List.mem_iff_getElem?.2 ⟨i, ?_⟩
      rw [hvec' i, if_pos hilast, if_neg (fun hc => hiq hc.symm)]
      exact hi
    · have hieq : i = (s.owned frm).length - 1 := by omega
      have heup : e = updated_id := by
        rw [hieq] at hi
        rw [hlastget] at hi
        exact (Option.some_inj.mp hi).symm
      have hqlt : q < (s.owned frm).length - 1 := by
        rcases Nat.lt_or_ge q ((s.owned frm).length - 1) with hlt | hge
        · exact hlt
        · exfalso
          have : q = (s.owned frm).length - 1 := by omega
          have := hupk this
          rw [heup] at hek
          exact hek this.symm
      refine List.mem_iff_getElem?.2 ⟨q, ?_⟩
      rw [hvec' q, if_pos hqlt, if_pos rfl, heup]
  have howE : (tokResult s frm dst k updated_id).owned =
      setS (setS s.owned frm (((s.owned frm).set ((s.ownedIndex k).getD 0)
          updated_id).dropLast)) dst
        (setS s.owned frm (((s.owned frm).set ((s.ownedIndex k).getD 0)
          updated_id).dropLast) dst ++ [k]) := rfl
  have hoiE : (tokResult s frm dst k updated_id).ownedIndex =
      setN (setN s.ownedIndex updated_id (some ((s.ownedIndex k).getD 0))) k
        (some ((setS s.owned frm (((s.owned frm).set ((s.ownedIndex k).getD 0)
          updated_id).dropLast) dst ++ [k]).length - 1)) := rfl
  have hooE : (tokResult s frm dst k updated_id).ownerOf =
      setN s.ownerOf k (some dst) := rfl
  rw [hgetD] at howE hoiE
  have hlenvK : (((s.owned frm).set q updated_id).dropLast).length =
      (s.owned frm).length - 1 := by
    rw [List.length_dropLast, List.length_set]
  have hidxInner : ∀ (i e : Nat),
      (((s.owned frm).set q updated_id).dropLast)[i]? = some e →
      setN s.ownedIndex updated_id (some q) e = some i := by
    intro i e he2
    rw [hvec' i] at he2
    split at he2
    next hilt =>
      split at he2
      next hqi =>
        obtain rfl : e = updated_id := (Option.some_inj.mp he2).symm
        rw [setN_self, hqi]
      next hqi =>
        have hek : e ≠ updated_id := by
          intro hc
          subst hc
          have := huniq i ((s.owned frm).length - 1) e he2 hlastget
          omega
        rw [setN_ne _ _ _ _ hek]
        exact hidx frm i e he2
    next hilt => cases he2
  have hkne2 : ∀ e, e ∈ ((s.owned frm).set q updated_id).dropLast → e ≠ k :=
    fun e hmem' hc => hknotin (hc ▸ hmem')
  refine ⟨?_, ?_, ?_, ?_⟩
  · intro a i e he
    rw [howE] at he
    rw [hoiE]
    by_cases had : a = dst
    · subst had
      rw [setS_self] at he
      by_cases hfd : a = frm
      · subst hfd
        rw [setS_self] at he
        by_cases hi : i < (((s.owned a).set q updated_id).dropLast).length
        · rw [List.getElem?_append_left hi] at he
          have hek : e ≠ k := hkne2 e (mem_of_getElem? he)
          rw [setN_ne _ _ _ _ hek]
          exact hidxInner i e he
        · rw [List.getElem?_append_right (by omega)] at he
          have hsing : i - (((s.owned a).set q updated_id).dropLast).length = 0 ∧
              e = k := by
            rcases hz : i - (((s.owned a).set q updated_id).dropLast).length with - | j
            · rw [hz] at he
              simp at he
              exact ⟨rfl, he.symm⟩
            · rw [hz] at he
              simp at he
          obtain ⟨hz, rfl⟩ := hsing
          rw [setN_self]
          rw [setS_self, List.length_append]
          congr 1
          simp only [List.length_singleton]
          omega
      · rw [setS_ne _ _ _ _ (fun hc => hfd hc)] at he
        by_cases hi : i < (s.owned a).length
        · rw [List.getElem?_append_left hi] at he
          have hmem' : e ∈ s.owned a := mem_of_getElem? he
          have hek : e ≠ k := fun hc => hkowned a hfd (hc ▸ hmem')
          have heu : e ≠ updated_id := fun hc => hupowned a hfd (hc ▸ hmem')
          rw [setN_ne _ _ _ _ hek, setN_ne _ _ _ _ heu]
          exact hidx a i e he
        · rw [List.getElem?_append_right (by omega)] at he
          have hsing : i - (s.owned a).length = 0 ∧ e = k := by
            rcases hz : i - (s.owned a).length with - | j
            · rw [hz] at he
              simp at he
              exact ⟨rfl, he.symm⟩
            · rw [hz] at he
              simp at he
          obtain ⟨hz, rfl⟩ := hsing
          rw [setN_self]
          rw [setS_ne _ _ _ _ (fun hc => hfd hc), List.length_append]
          congr 1
          simp only [List.length_singleton]
          omega
    · rw [setS_ne _ _ _ _ had] at he
      by_cases haf : a = frm
      · subst haf
        rw [setS_self] at he
        have hek : e ≠ k := hkne2 e (mem_of_getElem? he)
        rw [setN_ne _ _ _ _ hek]
        exact hidxInner i e he
      · rw [setS_ne _ _ _ _ haf] at he
        have hmem' : e ∈ s.owned a := mem_of_getElem? he
        have hek : e ≠ k := fun hc => hkowned a haf (hc ▸ hmem')
        have heu : e ≠ updated_id := fun hc => hupowned a haf (hc ▸ hmem')
        rw [setN_ne _ _ _ _ hek, setN_ne _ _ _ _ heu]
        exact hidx a i e he
  · intro a e he
    rw [howE] at he
    rw [hooE]
    by_cases had : a = dst
    · subst had
      rw [setS_self, List.mem_append] at he
      rcases he with he | he
      · by_cases hfd : a = frm
        · subst hfd
          rw [setS_self] at he
          have hek : e ≠ k := hkne2 e he
          rw [setN_ne _ _ _ _ hek]
          exact hown a e (hsub e he)
        · rw [setS_ne _ _ _ _ (fun hc => hfd hc)] at he
          have hek : e ≠ k := fun hc => hkowned a hfd (hc ▸ he)
          rw [setN_ne _ _ _ _ hek]
          exact hown a e he
      · rw [List.mem_singleton] at he
        rw [he, setN_self]
    · rw [setS_ne _ _ _ _ had] at he
      by_cases haf : a = frm
      · subst haf
        rw [setS_self] at he
        have hek : e ≠ k := hkne2 e he
        rw [setN_ne _ _ _ _ hek]
        exact hown a e (hsub e he)
      · rw [setS_ne _ _ _ _ haf] at he
        have hek : e ≠ k := fun hc => hkowned a haf (hc ▸ he)
        rw [setN_ne _ _ _ _ hek]
        exact hown a e he
  · intro a e he
    rw [hooE] at he
    rw [howE]
    by_cases hek : e = k
    · subst hek
      rw [setN_self] at he
      obtain rfl : a = dst := (Option.some_inj.mp he).symm
      rw [setS_self]
      exact List.mem_append_right _ (List.mem_singleton.2 rfl)
    · rw [setN_ne _ _ _ _ hek] at he
      have hm := hmem a e he
      by_cases had : a = dst
      · subst had
        rw [setS_self]
        refine List.mem_append_left _ ?_
        by_cases hfd : a = frm
        · subst hfd
          rw [setS_self]
          exact hin e hm hek
        · rw [setS_ne _ _ _ _ (fun hc => hfd hc)]
          exact hm
      · rw [setS_ne _ _ _ _ had]
        by_cases haf : a = frm
        · subst haf
          rw [setS_self]
          exact hin e hm hek
        · rw [setS_ne _ _ _ _ haf]
          exact hm
  · intro e
    rw [hooE]
    by_cases hek : e = k
    · subst hek
      rw [setN_self]
      exact fun hc => hd (Option.some_inj.mp hc)
    · rw [setN_ne _ _ _ _ hek]
      exact hne e

theorem invS_of_eq (s s' : State) (h1 : s'.owned = s.owned)
    (h2 : s'.ownedIndex = s.ownedIndex) (h3 : s'.ownerOf = s.ownerOf)
    (h : InvS s) : InvS s' := by
  unfold InvS InvIdx InvOwn InvMem InvNE
  rw [h1, h2, h3]
  exact h

theorem inv_burnN (frm : String) (n : Nat) (s s' : State) (hinv : InvS s)
    (h : burnN frm n s = .ok s') : InvS s' := by
  induction n generalizing s with
  | zero =>
    obtain rfl : s = s' := by simpa [burnN] using h
    exact hinv
  | succ n ih =>
    rw [burnN] at h
    cases hb : _burn s frm with
    | error e => rw [hb] at h; cases h
    | ok s1 =>
      rw [hb] at h
      exact ih s1 (inv_burn s frm s1 hinv hb) h

theorem inv_mintN (dst : String) (n : Nat) (s s' : State) (hinv : InvS s)
    (h : mintN dst n s = .ok s') : InvS s' := by
  induction n generalizing s with
  | zero =>
    obtain rfl : s = s' := by simpa [mintN] using h
    exact hinv
  | succ n ih =>
    rw [mintN] at h
    cases hb : _mint s dst with
    | error e => rw [hb] at h; cases h
    | ok s1 =>
      rw [hb] at h
      exact ih s1 (inv_mint s dst s1 hinv hb) h

theorem inv_transfer (s : State) (frm dst : String) (amount : Nat) (s' : State)
    (hinv : InvS s) (h : _transfer s frm dst amount = .ok s') : InvS s' := by
  obtain ⟨hf, hd, hle, s3, hmid, hfin⟩ := _transfer_ok_elim s frm dst amount s' h
  have hinv2 : InvS (stage2 s frm dst amount) :=
    invS_of_eq s (stage2 s frm dst amount) rfl rfl rfl hinv
  have hinv3 : InvS s3 := by
    split at hmid
    · obtain rfl : stage2 s frm dst amount = s3 := Except.ok.inj hmid
      exact hinv2
    · exact inv_burnN frm _ _ s3 hinv2 hmid
  split at hfin
  · obtain rfl : s3 = s' := Except.ok.inj hfin
    exact hinv3
  · exact inv_mintN dst _ _ s' hinv3 hfin

theorem inv_transfer_from (s : State) (sender frm dst : String) (a : Nat)
    (s' : State) (hinv : InvS s)
    (h : transfer_from s sender frm dst a = .ok s') : InvS s' := by
  by_cases hk : a ≤ s.minted
  · exact inv_tok s sender frm dst a s' hinv hk h
  · obtain ⟨s1, hs1, ht⟩ := transfer_from_frac_elim s sender frm dst a s' hk h
    have hinv1 : InvS s1 := by
      rcases hs1 with rfl | rfl
      · exact hinv
      · exact invS_of_eq s (allowStage s frm sender a) rfl rfl rfl hinv
    exact inv_transfer s1 frm dst a s' hinv1 ht

theorem inv_execute (envAddr : String) (s : State) (sender : String) (m : Msg)
    (s' : State) (hinv : InvS s) (h : execute envAddr s sender m = .ok s') :
    InvS s' := by
  cases m with
  | transferFromM o r a => exact inv_transfer_from s sender o r a s' hinv h
  | transferM r a => exact inv_transfer s sender r a s' hinv h
  | transferNft r t => exact inv_transfer_from s sender sender r t s' hinv h
  | sendM c a => exact inv_transfer s sender c a s' hinv (unwrapR_ok_elim _ _ h)
  | sendNft c t =>
    exact inv_transfer_from s sender sender c t s' hinv (unwrapR_ok_elim _ _ h)
  | increaseAllowance sp a =>
    obtain ⟨-, -, h1, h2, h3⟩ := approve_ok_elim s sender sp a s' h
    exact invS_of_eq s s' h1 h2 h3 hinv
  | approveM sp t =>
    obtain ⟨-, -, h1, h2, h3⟩ := approve_ok_elim s sender sp t s' h
    exact invS_of_eq s s' h1 h2 h3 hinv
  | approveAll op =>
    obtain ⟨-, -, h1, h2, h3⟩ := approve_all_ok_elim s sender op s' h
    exact invS_of_eq s s' h1 h2 h3 hinv
  | revokeAll op =>
    obtain ⟨-, -, h1, h2, h3⟩ := revoke_all_ok_elim s sender op s' h
    exact invS_of_eq s s' h1 h2 h3 hinv
  | generateNftEvent =>
    obtain rfl := generate_event_ok_elim envAddr s sender s' h
    exact hinv
  | generateNftMintEvent =>
    obtain rfl := generate_event_ok_elim envAddr s sender s' h
    exact hinv
  | generateNftBurnEvent =>
    obtain rfl := generate_event_ok_elim envAddr s sender s' h
    exact hinv
  | setWhitelist target st =>
    obtain ⟨-, s1, hcase, rfl⟩ := set_whitelist_ok_elim s sender target st s' h
    have hinv1 : InvS s1 := by
      rcases hcase with ⟨-, hburn⟩ | ⟨-, rfl⟩
      · exact inv_burnN target _ _ s1 hinv hburn
      · exact hinv
    exact invS_of_eq s1 _ rfl rfl rfl hinv1
  | setLock t st =>
    obtain ⟨-, -, h1, h2, h3⟩ := set_lock_ok_elim s sender t st s' h
    exact invS_of_eq s s' h1 h2 h3 hinv
  | setBaseTokenUri uri =>
    obtain ⟨-, -, h1, h2, h3⟩ := set_base_token_uri_ok_elim s sender uri s' h
    exact invS_of_eq s s' h1 h2 h3 hinv

theorem inv_instantiate (nm sym : String) (decimals native : Nat)
    (creator : String) : InvS (instantiate nm sym decimals native creator) := by
  refine ⟨?_, ?_, ?_, ?_⟩
  · intro a i e he
    cases he
  · intro a e he
    cases he
  · intro a e he
    cases he
  · intro e hc
    cases hc

theorem inv_reachable (envAddr nm sym : String) (decimals native : Nat)
    (creator : String) (s : State)
    (h : ReachableFrom envAddr (instantiate nm sym decimals native creator) s) :
    InvS s := by
  induction h with
  | refl => exact inv_instantiate nm sym decimals native creator
  | step s sender m hr ih =>
    unfold execStep
    cases hx : execute envAddr s sender m with
    | error e => exact ih
    | ok s' => exact inv_execute envAddr s sender m s' ih hx

/-- C6: in every state reachable from instantiation — hence after every
mint, burn and token-specific transfer — every token id present in any
owner's owned sequence has its stored owned-index entry equal to the id's
actual position in that sequence; in particular a token transfer that
removes the last element of the sender's sequence (where the swap-with-last
is a no-op) leaves no stale index entry for the removed token. -/
theorem C6_owned_index_invariant (envAddr nm sym : String) (decimals native : Nat)
    (creator : String) (s : State)
    (h : ReachableFrom envAddr (instantiate nm sym decimals native creator) s)
    (a : String) (i : Nat) (hi : i < (s.owned a).length) :
    s.ownedIndex ((s.owned a).get ⟨i, hi⟩) = some i := by
  have hinv := inv_reachable envAddr nm sym decimals native creator s h
  exact hinv.1 a i _ (by rw [List.get_eq_getElem, List.getElem?_eq_getElem hi])

/-- Concrete application of C6 on a reachable state in which "D" owns
token 1 at position 0. -/
theorem C6_witness :
    (execStep "cw404" (execStep "cw404" (instantiate "t" "T" 0 1000 "C") "C"
        (.setWhitelist "C" true)) "C" (.transferM "D" 1)).ownedIndex
      (((execStep "cw404" (execStep "cw404" (instantiate "t" "T" 0 1000 "C") "C"
        (.setWhitelist "C" true)) "C" (.transferM "D" 1)).owned "D").get
          ⟨0, by decide⟩) = some 0 :=
  C6_owned_index_invariant "cw404" "t" "T" 0 1000 "C" _
    (ReachableFrom.step _ "C" (.transferM "D" 1)
      (ReachableFrom.step _ "C" (.setWhitelist "C" true) ReachableFrom.refl))
    "D" 0 (by decide)
